import Mathlib

/-!
Verification of the openfactory production updater.

This file gives a shallow embedding of the production scheduler
(`src/productionUpdater.ts`), the item request collector
(`src/itemRequestCollector.ts`) and the item storage
(`src/ItemStorage.ts`) and proves or refutes the specification claims
about them.

Modelling conventions:
* Item counts (stored amounts, capacities, producer counts, recipe
  amounts) are natural numbers; the data model restricts them to
  non-negative integers and every code path keeps them non-negative.
  The guard `amount <= 0` of the storage operations therefore becomes
  `amount = 0`.
* Time quantities (`timeDelta`, `productionProgress`,
  `remainingTimeDelta`, `productionDuration`) are integers: the
  scheduler's arithmetic can drive remainders and progress below zero.
* `Math.min(...)` over a possibly empty list of naturals is modelled in
  `ℕ∞` (empty list ↦ `⊤`, mirroring `Math.min() = Infinity`).
* `Math.floor(a / b)` on non-negative integers is natural division.
  The rationing ratio of unsatisfiable groups is an exact rational,
  kept as an unreduced numerator/denominator pair, instead of a binary
  float; `⌊p · n/d⌋` is then the natural division `p·n/d`. All concrete
  scenarios checked here use ratios that float64 also represents
  exactly.
* JavaScript object identity of `RecipeProduction` objects is modelled
  by indices into a global line list; a call to `update` receives the
  list of indices it operates on (the recursive call can and does pass
  duplicate references, which indices represent faithfully).
* JavaScript `Map` insertion-order semantics are modelled by
  association lists (`alGet`/`alSet`).
* Exceptions are modelled with `Except`; the error value carries the
  state at the moment of the throw, since the TypeScript code mutates
  state in place and the mutations survive a propagated exception.
  The recursion of `update` and its inner `while` loop are not
  structurally terminating (indeed we refute termination below), so
  both are driven by an explicit fuel counter; running out of fuel is
  the distinguished error `Err.outOfFuel`.
-/

namespace OFPU

/-- Errors thrown by the embedded code, tagged by their source.
`rangeError` is the `RangeError` of `ItemStorageImpl.withdraw`/`deposit`
(non-positive amount); the `simpleMalformed*` tags are the three debug
validation errors of `processSimpleItemRequests`; the `*ShortWithdrawal`
tags are the debug inconsistency errors raised when a withdrawal
returns less than the requested amount; `badIndex` marks a dangling
production reference (never reachable from `update`); `outOfFuel`
signals fuel exhaustion of the embedding. -/
inductive Err : Type where
  | rangeError : Err
  | simpleMalformedCount : Err
  | simpleMalformedIngredients : Err
  | simpleMalformedTotal : Err
  | simpleShortWithdrawal : Err
  | satShortWithdrawal : Err
  | unsatShortWithdrawal : Err
  | badIndex : Err
  | outOfFuel : Err
  deriving DecidableEq, Repr

/-! ## ItemStorage (src/ItemStorage.ts)

The store state is the raw stored-amount map `raw : I → ℕ`; the
capacity map `caps : I → ℕ` is owned by the caller and read on every
query (`itemCapacitySettings.get(item) || 0` and
`storedAmounts.get(item) || 0` make absent keys behave as `0`, so total
functions model the maps faithfully). -/

/-- `getStoredAmount` clamps the raw stored amount by the capacity. -/
def getStoredAmount {I : Type} (caps raw : I → ℕ) (item : I) : ℕ :=
  min (raw item) (caps item)

/-- `getFreeCapacity` (truncated subtraction models `Math.max(_, 0)`). -/
def getFreeCapacity {I : Type} (caps raw : I → ℕ) (item : I) : ℕ :=
  caps item - getStoredAmount caps raw item

/-- `withdraw`: throws on a non-positive amount, otherwise removes
`min(amount, storedAmount)` and stores back
`storedAmount - withdrawnAmount` (note: the clamped amount, not the raw
amount, is the basis of the new raw value). Returns the new raw map and
the withdrawn amount. -/
def withdraw {I : Type} [DecidableEq I] (caps raw : I → ℕ) (item : I) (amount : ℕ) :
    Except Err ((I → ℕ) × ℕ) :=
  if amount = 0 then .error .rangeError
  else
    let storedAmount := getStoredAmount caps raw item
    let withdrawnAmount := min amount storedAmount
    .ok (Function.update raw item (storedAmount - withdrawnAmount), withdrawnAmount)

/-- `deposit`: throws on a non-positive amount, otherwise adds
`min(amount, freeCapacity)` to the clamped stored amount. -/
def deposit {I : Type} [DecidableEq I] (caps raw : I → ℕ) (item : I) (amount : ℕ) :
    Except Err ((I → ℕ) × ℕ) :=
  if amount = 0 then .error .rangeError
  else
    let freeCapacity := getFreeCapacity caps raw item
    let depositedAmount := min amount freeCapacity
    .ok (Function.update raw item (getStoredAmount caps raw item + depositedAmount),
      depositedAmount)

/-! ## Data model (src/productionUpdater.ts interfaces) -/

/-- One `{item, amount}` entry of a recipe's ingredient or result list. -/
structure ItemAmount (I : Type) where
  item : I
  amount : ℕ
  deriving DecidableEq, Repr

/-- `Recipe<I>`. The duration is an integer time quantity. -/
structure Recipe (I : Type) where
  ingredients : List (ItemAmount I)
  result : List (ItemAmount I)
  productionDuration : ℤ
  deriving DecidableEq, Repr

/-- `RecipeProduction<I>`; `productionProgress` is an integer because
the scheduler's remainder arithmetic can push it below zero. -/
structure RecipeProduction (I : Type) where
  recipe : Recipe I
  totalProducers : ℕ
  activeProducers : ℕ
  productionProgress : ℤ
  deriving DecidableEq, Repr

/-- The mutable state of one `update` run: the global list of
production-line objects (referenced by index) and the raw stored map. -/
structure SimState (I : Type) where
  lines : List (RecipeProduction I)
  raw : I → ℕ

/-- `RecipeProductionUpdateTracker<I>`: a reference to a production and
its remaining time delta. -/
structure Tracker where
  prodIdx : ℕ
  rem : ℤ
  deriving DecidableEq, Repr

/-- Overwrite line `i` (JavaScript mutation through an object
reference). -/
def setLine {I : Type} (σ : SimState I) (i : ℕ) (p : RecipeProduction I) : SimState I :=
  { σ with lines := σ.lines.set i p }

/-! ## Association lists with JavaScript `Map` semantics -/

/-- `Map.get`. -/
def alGet {I : Type} [DecidableEq I] {α : Type} : List (I × α) → I → Option α
  | [], _ => none
  | (k, v) :: rest, item => if k = item then some v else alGet rest item

/-- `Map.set`: replaces the value in place when the key is present,
otherwise appends (JavaScript `Map` preserves first-insertion order). -/
def alSet {I : Type} [DecidableEq I] {α : Type} : List (I × α) → I → α → List (I × α)
  | [], item, v => [(item, v)]
  | (k, w) :: rest, item, v =>
    if k = item then (k, v) :: rest else (k, w) :: alSet rest item v

/-- `Map.has`. -/
def alHas {I : Type} [DecidableEq I] {α : Type} (m : List (I × α)) (item : I) : Bool :=
  (alGet m item).isSome

/-- `Math.min(...xs)` over naturals: `⊤` (`Infinity`) for the empty
list. -/
def minENat : List ℕ → ℕ∞
  | [] => ⊤
  | n :: rest => min (n : ℕ∞) (minENat rest)

/-- Minimum of a list of integers, `Math.min` style; the `0` default for
the empty list is never consulted (all call sites guard non-emptiness). -/
def minInt : List ℤ → ℤ
  | [] => 0
  | n :: rest => rest.foldl min n

/-- Strict comparison of two non-negative fractions given as
numerator/denominator pairs, by cross multiplication (exact; agrees
with the comparison of the real quotients whenever the denominators are
positive, which the data model guarantees). -/
def fracLT (x y : ℕ × ℕ) : Bool := decide (x.1 * y.2 < y.1 * x.2)

/-- Minimum of a list of fractions, `Math.min` style; the `(0, 1)`
default for the empty list is never consulted. -/
def minFrac : List (ℕ × ℕ) → ℕ × ℕ
  | [] => (0, 1)
  | x :: rest => rest.foldl (fun acc y => if fracLT y acc then y else acc) x

/-- `Math.floor(p * ratio)` for a fraction ratio, computed exactly as
`⌊p·n/d⌋` (independent of the representative of the fraction). -/
def floorMulFrac (p : ℕ) (r : ℕ × ℕ) : ℕ := p * r.1 / r.2

/-! ## Item request collector (src/itemRequestCollector.ts) -/

/-- One entry of `ItemRequest.productions`: the production is a
reference (global index). -/
structure ProdEntry where
  production : ℕ
  requestedAmount : ℕ
  requestedProducers : ℕ
  deriving DecidableEq, Repr

/-- `ItemRequest<I>` (the item itself is the association-list key). -/
structure ItemRequest where
  productions : List ProdEntry
  totalRequestedAmount : ℕ
  deriving DecidableEq, Repr

/-- The `maxSafeProducers` bound of `collectItemRequests` for one
production: the configured total clamped by what the stored ingredients
can sustain and what the free result capacity can absorb. -/
def maxSafeProducers {I : Type} (caps raw : I → ℕ) (p : RecipeProduction I) : ℕ :=
  ENat.toNat (min (p.totalProducers : ℕ∞) (min
    (minENat (p.recipe.ingredients.map fun ia => getStoredAmount caps raw ia.item / ia.amount))
    (minENat (p.recipe.result.map fun ia => getFreeCapacity caps raw ia.item / ia.amount))))

/-- Append one production's ingredient requests to the accumulated
per-item request map. -/
def collectIngredients {I : Type} [DecidableEq I] (idx : ℕ) (maxSafe : ℕ) :
    List (ItemAmount I) → List (I × ItemRequest) → List (I × ItemRequest)
  | [], acc => acc
  | ing :: rest, acc =>
    let req := (alGet acc ing.item).getD ⟨[], 0⟩
    let requestedAmount := ing.amount * maxSafe
    collectIngredients idx maxSafe rest (alSet acc ing.item
      ⟨req.productions ++ [⟨idx, requestedAmount, maxSafe⟩],
        req.totalRequestedAmount + requestedAmount⟩)

/-- `collectItemRequests` over the list of production references
(`idxs` are positions in `σ.lines`): a production with zero
`productionProgress` requests `ingredient.amount · maxSafe` of every
ingredient, unless `maxSafe = 0`. -/
def collectItemRequests {I : Type} [DecidableEq I] (caps : I → ℕ) (σ : SimState I) :
    List ℕ → List (I × ItemRequest) → List (I × ItemRequest)
  | [], acc => acc
  | idx :: rest, acc =>
    match σ.lines.get? idx with
    | none => collectItemRequests caps σ rest acc
    | some p =>
      if p.productionProgress = 0 then
        let maxSafe := maxSafeProducers caps σ.raw p
        if maxSafe = 0 then collectItemRequests caps σ rest acc
        else collectItemRequests caps σ rest
          (collectIngredients idx maxSafe p.recipe.ingredients acc)
      else collectItemRequests caps σ rest acc

/-- The body of the `getSimpleItemRequests` filter: the request has
exactly one entry and every ingredient of that entry's production is
requested by that production alone. -/
def isSimpleRequest {I : Type} [DecidableEq I] (σ : SimState I)
    (all : List (I × ItemRequest)) (req : ItemRequest) : Bool :=
  match req.productions with
  | [entry] =>
    match σ.lines.get? entry.production with
    | none => false
    | some p =>
      p.recipe.ingredients.all fun ia =>
        match alGet all ia.item with
        | none => false
        | some other =>
          match other.productions with
          | [otherEntry] => otherEntry.production = entry.production
          | _ => false
  | _ => false

/-- `getSimpleItemRequests`. -/
def getSimpleItemRequests {I : Type} [DecidableEq I] (σ : SimState I)
    (all : List (I × ItemRequest)) : List (I × ItemRequest) :=
  all.filter fun kv => isSimpleRequest σ all kv.2

/-- The body of the `getSatisfiableMixedItemRequests` filter: every
production touching the item can obtain every one of its ingredients in
the fully requested amount from current storage. -/
def isSatisfiableRequest {I : Type} [DecidableEq I] (caps : I → ℕ) (σ : SimState I)
    (all : List (I × ItemRequest)) (req : ItemRequest) : Bool :=
  req.productions.all fun entry =>
    match σ.lines.get? entry.production with
    | none => false
    | some p =>
      p.recipe.ingredients.all fun ia =>
        match alGet all ia.item with
        | none => false
        | some ir => decide (ir.totalRequestedAmount ≤ getStoredAmount caps σ.raw ia.item)

/-- `getSatisfiableMixedItemRequests`. -/
def getSatisfiableMixedItemRequests {I : Type} [DecidableEq I] (caps : I → ℕ)
    (σ : SimState I) (all simple : List (I × ItemRequest)) : List (I × ItemRequest) :=
  all.filter fun kv => !alHas simple kv.1 && isSatisfiableRequest caps σ all kv.2

/-- One pass of the group-closure loop of
`getGroupedUnsatisfiableMixedItemRequests`: iterate over a snapshot of
the current group items, adding every ingredient of every production
mentioned in an unsatisfiable request of a group item. -/
def closureStep {I : Type} [DecidableEq I] (σ : SimState I)
    (unsat : List (I × ItemRequest)) (groupItems : List I) : List I :=
  groupItems.foldl
    (fun acc known =>
      match alGet unsat known with
      | none => acc
      | some req =>
        req.productions.foldl
          (fun acc2 entry =>
            match σ.lines.get? entry.production with
            | none => acc2
            | some p =>
              p.recipe.ingredients.foldl
                (fun acc3 ia => if ia.item ∈ acc3 then acc3 else acc3 ++ [ia.item])
                acc2)
          acc)
    groupItems

/-- The `do … while` closure loop, with fuel; each round either grows
the group or stops, so any fuel above the total ingredient-occurrence
count reaches the fixed point the JavaScript loop reaches. -/
def closureGo {I : Type} [DecidableEq I] (σ : SimState I)
    (unsat : List (I × ItemRequest)) : ℕ → List I → List I
  | 0, groupItems => groupItems
  | fuel + 1, groupItems =>
    let next := closureStep σ unsat groupItems
    if next.length = groupItems.length then groupItems
    else closureGo σ unsat fuel next

/-- Fuel that dominates the number of distinct items any closure can
add: the total ingredient-occurrence count of all lines, plus one. -/
def closureFuel {I : Type} (σ : SimState I) : ℕ :=
  σ.lines.foldl (fun n p => n + p.recipe.ingredients.length) 0 + 1

/-- The grouping loop of `getGroupedUnsatisfiableMixedItemRequests`:
pop the first unsatisfiable item, close it up, extract the group, and
repeat on the remainder. Fueled by the length of the unsatisfiable
list, which strictly shrinks every round (the seed always leaves). -/
def groupsGo {I : Type} [DecidableEq I] (σ : SimState I) :
    ℕ → List (I × ItemRequest) → List (List (I × ItemRequest))
  | 0, _ => []
  | fuel + 1, unsat =>
    match unsat with
    | [] => []
    | (item, _) :: _ =>
      let groupItems := closureGo σ unsat (closureFuel σ) [item]
      let group := groupItems.foldl
        (fun acc it =>
          match alGet unsat it with
          | none => acc
          | some req => acc ++ [(it, req)])
        []
      let rest := unsat.filter fun kv => decide (kv.1 ∉ groupItems)
      group :: groupsGo σ fuel rest

/-- `getGroupedUnsatisfiableMixedItemRequests`. -/
def getGroupedUnsatisfiableMixedItemRequests {I : Type} [DecidableEq I] (σ : SimState I)
    (all simple sat : List (I × ItemRequest)) : List (List (I × ItemRequest)) :=
  let unsat := all.filter fun kv => !alHas simple kv.1 && !alHas sat kv.1
  groupsGo σ unsat.length unsat

/-! ## Scheduler phases (src/productionUpdater.ts) -/

/-- The first loop of `update`: activate idle ingredient-less lines up
to what the free result capacity can absorb, then push a tracker for
every line that is (now) active. -/
def activationPass {I : Type} [DecidableEq I] (caps : I → ℕ) (timeDelta : ℤ) :
    List ℕ → SimState I → List Tracker → SimState I × List Tracker
  | [], σ, acc => (σ, acc)
  | idx :: rest, σ, acc =>
    match σ.lines.get? idx with
    | none => activationPass caps timeDelta rest σ acc
    | some p =>
      let p1 :=
        if p.activeProducers = 0 ∧ p.recipe.ingredients = [] then
          let maxUseful := minENat
            (p.recipe.result.map fun ia => getFreeCapacity caps σ.raw ia.item / ia.amount)
          { p with activeProducers := ENat.toNat (min maxUseful (p.totalProducers : ℕ∞)) }
        else p
      let σ1 := setLine σ idx p1
      if p1.activeProducers ≠ 0 then
        activationPass caps timeDelta rest σ1 (acc ++ [⟨idx, timeDelta⟩])
      else activationPass caps timeDelta rest σ1 acc

/-- `processSimpleItemRequests`: debug validation, withdrawal of the
single requested amount, debug inconsistency check, activation. -/
def processSimpleItemRequests {I : Type} [DecidableEq I] (caps : I → ℕ) (timeDelta : ℤ)
    (debug : Bool) : List (I × ItemRequest) → SimState I → List Tracker →
    Except (Err × SimState I) (SimState I × List Tracker)
  | [], σ, acc => .ok (σ, acc)
  | (item, req) :: rest, σ, acc =>
    if debug ∧ req.productions.length ≠ 1 then .error (.simpleMalformedCount, σ)
    else
      match req.productions with
      | [] => .error (.badIndex, σ)
      | entry :: _ =>
        match σ.lines.get? entry.production with
        | none => .error (.badIndex, σ)
        | some p =>
          if debug ∧ p.recipe.ingredients.length ≠ 1 then
            .error (.simpleMalformedIngredients, σ)
          else if debug ∧ entry.requestedAmount ≠ req.totalRequestedAmount then
            .error (.simpleMalformedTotal, σ)
          else
            match withdraw caps σ.raw item entry.requestedAmount with
            | .error e => .error (e, σ)
            | .ok (raw1, availableAmount) =>
              let σ1 : SimState I := { σ with raw := raw1 }
              if debug ∧ availableAmount ≠ entry.requestedAmount then
                .error (.simpleShortWithdrawal, σ1)
              else
                let σ2 := setLine σ1 entry.production
                  { p with activeProducers := entry.requestedProducers }
                processSimpleItemRequests caps timeDelta debug rest σ2
                  (acc ++ [⟨entry.production, timeDelta⟩])

/-- One per-production record of the satisfiable-mixed regrouping. -/
structure SatEntry (I : Type) where
  item : I
  requestedAmount : ℕ
  requestedProducers : ℕ
  deriving DecidableEq, Repr

/-- Build `satisfiableMultiIngredientProductions`: regroup the
satisfiable per-item requests by production reference. -/
def satByProduction {I : Type} [DecidableEq I] :
    List (I × ItemRequest) → List (ℕ × List (SatEntry I)) → List (ℕ × List (SatEntry I))
  | [], acc => acc
  | (item, req) :: rest, acc =>
    satByProduction rest
      (req.productions.foldl
        (fun acc2 entry =>
          let cur := (alGet acc2 entry.production).getD []
          alSet acc2 entry.production
            (cur ++ [⟨item, entry.requestedAmount, entry.requestedProducers⟩]))
        acc)

/-- The withdrawal loop over one production's satisfiable item
requests. -/
def satWithdrawals {I : Type} [DecidableEq I] (caps : I → ℕ) (debug : Bool) :
    List (SatEntry I) → SimState I → Except (Err × SimState I) (SimState I)
  | [], σ => .ok σ
  | entry :: rest, σ =>
    match withdraw caps σ.raw entry.item entry.requestedAmount with
    | .error e => .error (e, σ)
    | .ok (raw1, availableAmount) =>
      let σ1 : SimState I := { σ with raw := raw1 }
      if debug ∧ availableAmount ≠ entry.requestedAmount then
        .error (.satShortWithdrawal, σ1)
      else satWithdrawals caps debug rest σ1

/-- The per-production loop of `processSatisfiableMixedItemRequests`. -/
def satProductionsLoop {I : Type} [DecidableEq I] (caps : I → ℕ) (timeDelta : ℤ)
    (debug : Bool) : List (ℕ × List (SatEntry I)) → SimState I → List Tracker →
    Except (Err × SimState I) (SimState I × List Tracker)
  | [], σ, acc => .ok (σ, acc)
  | (idx, entries) :: rest, σ, acc =>
    match satWithdrawals caps debug entries σ with
    | .error e => .error e
    | .ok σ1 =>
      match entries with
      | [] => .error (.badIndex, σ1)
      | first :: _ =>
        match σ1.lines.get? idx with
        | none => .error (.badIndex, σ1)
        | some p =>
          let σ2 := setLine σ1 idx { p with activeProducers := first.requestedProducers }
          satProductionsLoop caps timeDelta debug rest σ2 (acc ++ [⟨idx, timeDelta⟩])

/-- `processSatisfiableMixedItemRequests`. -/
def processSatisfiableMixedItemRequests {I : Type} [DecidableEq I] (caps : I → ℕ)
    (timeDelta : ℤ) (debug : Bool) (sat : List (I × ItemRequest)) (σ : SimState I)
    (acc : List Tracker) : Except (Err × SimState I) (SimState I × List Tracker) :=
  satProductionsLoop caps timeDelta debug (satByProduction sat []) σ acc

/-- The per-line activation map of an unsatisfiable group: each line
gets `⌊requestedProducers · ratio⌋` producers (later occurrences of the
same line overwrite earlier ones with the same value). -/
def unsatProducers {I : Type} [DecidableEq I] (ratio : ℕ × ℕ) :
    List (I × ItemRequest) → List (ℕ × ℕ) → List (ℕ × ℕ)
  | [], acc => acc
  | (_, req) :: rest, acc =>
    unsatProducers ratio rest
      (req.productions.foldl
        (fun acc2 entry =>
          alSet acc2 entry.production (floorMulFrac entry.requestedProducers ratio))
        acc)

/-- The withdrawal loop over one rationed production's ingredients;
withdraws `ingredient.amount · producersToActivate` for every
ingredient — also when `producersToActivate` is zero, in which case the
storage throws its range error. -/
def unsatWithdrawals {I : Type} [DecidableEq I] (caps : I → ℕ) (debug : Bool)
    (producersToActivate : ℕ) : List (ItemAmount I) → SimState I →
    Except (Err × SimState I) (SimState I)
  | [], σ => .ok σ
  | ia :: rest, σ =>
    match withdraw caps σ.raw ia.item (ia.amount * producersToActivate) with
    | .error e => .error (e, σ)
    | .ok (raw1, availableAmount) =>
      let σ1 : SimState I := { σ with raw := raw1 }
      if debug ∧ availableAmount ≠ ia.amount * producersToActivate then
        .error (.unsatShortWithdrawal, σ1)
      else unsatWithdrawals caps debug producersToActivate rest σ1

/-- The per-production loop of
`processUnsatisfiableMixedItemRequestsGroup`. -/
def unsatProductionsLoop {I : Type} [DecidableEq I] (caps : I → ℕ) (timeDelta : ℤ)
    (debug : Bool) : List (ℕ × ℕ) → SimState I → List Tracker →
    Except (Err × SimState I) (SimState I × List Tracker)
  | [], σ, acc => .ok (σ, acc)
  | (idx, producersToActivate) :: rest, σ, acc =>
    match σ.lines.get? idx with
    | none => .error (.badIndex, σ)
    | some p =>
      match unsatWithdrawals caps debug producersToActivate p.recipe.ingredients σ with
      | .error e => .error e
      | .ok σ1 =>
        let σ2 := setLine σ1 idx { p with activeProducers := producersToActivate }
        unsatProductionsLoop caps timeDelta debug rest σ2 (acc ++ [⟨idx, timeDelta⟩])

/-- `processUnsatisfiableMixedItemRequestsGroup`: ration by the scarcest
stored/requested ratio of the group. -/
def processUnsatisfiableMixedItemRequestsGroup {I : Type} [DecidableEq I] (caps : I → ℕ)
    (timeDelta : ℤ) (debug : Bool) (group : List (I × ItemRequest)) (σ : SimState I)
    (acc : List Tracker) : Except (Err × SimState I) (SimState I × List Tracker) :=
  let ratio := minFrac (group.map fun kv =>
    (getStoredAmount caps σ.raw kv.1, kv.2.totalRequestedAmount))
  unsatProductionsLoop caps timeDelta debug (unsatProducers ratio group []) σ acc

/-- Fold `processUnsatisfiableMixedItemRequestsGroup` over all groups. -/
def processUnsatGroups {I : Type} [DecidableEq I] (caps : I → ℕ) (timeDelta : ℤ)
    (debug : Bool) : List (List (I × ItemRequest)) → SimState I → List Tracker →
    Except (Err × SimState I) (SimState I × List Tracker)
  | [], σ, acc => .ok (σ, acc)
  | group :: rest, σ, acc =>
    match processUnsatisfiableMixedItemRequestsGroup caps timeDelta debug group σ acc with
    | .error e => .error e
    | .ok (σ1, acc1) => processUnsatGroups caps timeDelta debug rest σ1 acc1

/-! ## Progress advancement (updateProductions) -/

/-- Sequential deposits of `amount · producers` for every result
entry. -/
def depositResults {I : Type} [DecidableEq I] (caps : I → ℕ) (producers : ℕ) :
    List (ItemAmount I) → SimState I → Except (Err × SimState I) (SimState I)
  | [], σ => .ok σ
  | ia :: rest, σ =>
    match deposit caps σ.raw ia.item (ia.amount * producers) with
    | .error e => .error (e, σ)
    | .ok (raw1, _) => depositResults caps producers rest { σ with raw := raw1 }

/-- `updateProductions`: apply `min(remainingTimeDelta,
timeToCompletion)` to the shared progress of each tracked production;
on completion deposit as many producers' results as the free capacity
admits, and reset the progress when the line fully drains. Returns the
updated trackers (their `remainingTimeDelta` fields are mutated). -/
def updateProductions {I : Type} [DecidableEq I] (caps : I → ℕ) :
    List Tracker → SimState I → List Tracker →
    Except (Err × SimState I) (SimState I × List Tracker)
  | [], σ, acc => .ok (σ, acc)
  | t :: rest, σ, acc =>
    match σ.lines.get? t.prodIdx with
    | none => .error (.badIndex, σ)
    | some p =>
      let recipeDuration := p.recipe.productionDuration
      let timeToCompletion := recipeDuration - p.productionProgress
      let timeDeltaToApply := min t.rem timeToCompletion
      let p1 := { p with productionProgress := p.productionProgress + timeDeltaToApply }
      let rem1 := t.rem - timeDeltaToApply
      let σ1 := setLine σ t.prodIdx p1
      if p1.productionProgress = recipeDuration then
        let producersToDepositResults :=
          (p1.recipe.result.map fun ia => getFreeCapacity caps σ1.raw ia.item / ia.amount).foldl
            min p1.activeProducers
        if producersToDepositResults ≠ 0 then
          match depositResults caps producersToDepositResults p1.recipe.result σ1 with
          | .error e => .error e
          | .ok σ2 =>
            let active2 := p1.activeProducers - producersToDepositResults
            let p2 := { p1 with
              activeProducers := active2,
              productionProgress := if active2 = 0 then 0 else p1.productionProgress }
            updateProductions caps rest (setLine σ2 t.prodIdx p2)
              (acc ++ [⟨t.prodIdx, rem1⟩])
        else updateProductions caps rest σ1 (acc ++ [⟨t.prodIdx, rem1⟩])
      else updateProductions caps rest σ1 (acc ++ [⟨t.prodIdx, rem1⟩])

/-! ## The update entry point and its while loop -/

/-- The filter applied to the trackers before and inside the `while`
loop: keep a tracker when it still has remaining time or its production
sits exactly at the recipe duration. -/
def keepTracker {I : Type} (σ : SimState I) (t : Tracker) : Bool :=
  t.rem ≠ 0 ||
    match σ.lines.get? t.prodIdx with
    | none => false
    | some p => p.productionProgress = p.recipe.productionDuration

/-- Does some tracked production still sit strictly below its recipe
duration (the "not stalled on output" loop guard)? -/
def someBelowDuration {I : Type} (σ : SimState I) (toUpdate : List Tracker) : Bool :=
  toUpdate.any fun t =>
    match σ.lines.get? t.prodIdx with
    | none => false
    | some p => p.productionProgress < p.recipe.productionDuration

/-- The full guard of the `while` loop. -/
def loopCond {I : Type} (σ : SimState I) (toUpdate : List Tracker) : Bool :=
  !toUpdate.isEmpty && someBelowDuration σ toUpdate && toUpdate.any fun t => t.rem ≠ 0

/-- The straight-line prefix of `update` before the `while` loop:
collect and partition the item requests, activate idle ingredient-less
lines, run the three processing phases, advance all tracked
productions, and filter the trackers that the loop will consider. -/
def runPhases {I : Type} [DecidableEq I] (caps : I → ℕ) (σ : SimState I) (idxs : List ℕ)
    (timeDelta : ℤ) (debug : Bool) :
    Except (Err × SimState I) (SimState I × List Tracker) :=
  let all := collectItemRequests caps σ idxs []
  let simple := getSimpleItemRequests σ all
  let sat := getSatisfiableMixedItemRequests caps σ all simple
  let groups := getGroupedUnsatisfiableMixedItemRequests σ all simple sat
  let (σ1, trackers0) := activationPass caps timeDelta idxs σ []
  match processSimpleItemRequests caps timeDelta debug simple σ1 trackers0 with
  | .error e => .error e
  | .ok (σ2, trackers1) =>
    match processSatisfiableMixedItemRequests caps timeDelta debug sat σ2 trackers1 with
    | .error e => .error e
    | .ok (σ3, trackers2) =>
      match processUnsatGroups caps timeDelta debug groups σ3 trackers2 with
      | .error e => .error e
      | .ok (σ4, trackers3) =>
        match updateProductions caps trackers3 σ4 [] with
        | .error e => .error e
        | .ok (σ5, trackers4) => .ok (σ5, trackers4.filter (keepTracker σ5))

/-- The suffix of `update` after the `while` loop: the final
`updateProductions` pass that gives output-stalled productions one last
chance to store their outputs. -/
def afterLoop {I : Type} [DecidableEq I] (caps : I → ℕ)
    (r : Except (Err × SimState I) (SimState I × List Tracker)) :
    Except (Err × SimState I) (SimState I) :=
  match r with
  | .error e => .error e
  | .ok (σ6, toUpdate1) =>
    match updateProductions caps toUpdate1 σ6 [] with
    | .error e => .error e
    | .ok (σ7, _) => .ok σ7

/-- The fuel-indexed pair of mutually recursive functions: the first
component is `update` itself, the second the body of its `while` loop
(to be entered only when `loopCond` already holds — every call site
checks the condition first, so a loop that exits immediately consumes
no fuel). One unit of fuel is consumed by each `update` entry and by
each loop iteration. -/
def updateGo {I : Type} [DecidableEq I] (caps : I → ℕ) :
    ℕ → (SimState I → List ℕ → ℤ → Bool → Except (Err × SimState I) (SimState I)) ×
      (SimState I → List Tracker → Bool → Except (Err × SimState I) (SimState I × List Tracker))
  | 0 =>
    ⟨fun σ _ _ _ => .error (.outOfFuel, σ),
     fun σ _ _ => .error (.outOfFuel, σ)⟩
  | fuel + 1 =>
    ⟨fun σ idxs timeDelta debug =>
      match runPhases caps σ idxs timeDelta debug with
      | .error e => .error e
      | .ok (σ5, toUpdate) =>
        afterLoop caps
          (if loopCond σ5 toUpdate then (updateGo caps fuel).2 σ5 toUpdate debug
           else .ok (σ5, toUpdate)),
     fun σ toUpdate debug =>
       let minRemainingTimeDelta :=
         minInt ((toUpdate.filter fun t => t.rem ≠ 0).map Tracker.rem)
       match (updateGo caps fuel).1 σ (toUpdate.map Tracker.prodIdx)
           minRemainingTimeDelta debug with
       | .error e => .error e
       | .ok σ1 =>
         let toUpdate1 :=
           (toUpdate.map fun t => { t with rem := t.rem - minRemainingTimeDelta }).filter
             (keepTracker σ1)
         if loopCond σ1 toUpdate1 then (updateGo caps fuel).2 σ1 toUpdate1 debug
         else .ok (σ1, toUpdate1)⟩

/-- `update` (the default export of src/productionUpdater.ts), driven
by fuel: the straight-line phase prefix, then the `while` loop, then
the final deposit pass. -/
def updateFuel {I : Type} [DecidableEq I] (caps : I → ℕ) (fuel : ℕ) (σ : SimState I)
    (idxs : List ℕ) (timeDelta : ℤ) (debug : Bool) :
    Except (Err × SimState I) (SimState I) :=
  (updateGo caps fuel).1 σ idxs timeDelta debug

/-- The `while` loop of `update` (condition test plus fueled body):
recurse with the minimal non-zero remaining delta, subtract it from
every kept tracker, and re-filter. -/
def updateLoop {I : Type} [DecidableEq I] (caps : I → ℕ) (fuel : ℕ) (σ : SimState I)
    (toUpdate : List Tracker) (debug : Bool) :
    Except (Err × SimState I) (SimState I × List Tracker) :=
  if loopCond σ toUpdate then (updateGo caps fuel).2 σ toUpdate debug
  else .ok (σ, toUpdate)

/-! ## Result accessors -/

/-- The final state of a normal return, `none` when the call threw. -/
def resOk {I : Type} (r : Except (Err × SimState I) (SimState I)) : Option (SimState I) :=
  match r with
  | .ok σ => some σ
  | .error _ => none

/-- The error tag of a throwing call, `none` on a normal return. -/
def resErr {I : Type} (r : Except (Err × SimState I) (SimState I)) : Option Err :=
  match r with
  | .ok _ => none
  | .error e => some e.1

/-- The state at the moment of the throw (mutations before the throw
survive, as they do through a propagating JavaScript exception). -/
def errState {I : Type} (r : Except (Err × SimState I) (SimState I)) : Option (SimState I) :=
  match r with
  | .ok _ => none
  | .error e => some e.2

/-- Error tag of a loop-level result. -/
def resErr2 {I : Type} (r : Except (Err × SimState I) (SimState I × List Tracker)) :
    Option Err :=
  match r with
  | .ok _ => none
  | .error e => some e.1

/-- Active producers and progress of every line — the line facts the
end-to-end scenarios talk about. -/
def lineStates {I : Type} (σ : SimState I) : List (ℕ × ℤ) :=
  σ.lines.map fun p => (p.activeProducers, p.productionProgress)

/-! ## Concrete items and scenarios -/

/-- The item domain of the test fixtures (src/__tests__/data/data.ts),
extended with four generic items for the counterexample scenarios. -/
inductive Item : Type where
  | treeTrunk
  | treeBark
  | woodPlank
  | woodenNail
  | table
  | itemA
  | itemB
  | itemC
  | itemD
  deriving DecidableEq, Repr

/-- Recipe WOODEN_NAIL: 1 plank → 24 nails, duration 1. -/
def woodenNailRecipe : Recipe Item := ⟨[⟨.woodPlank, 1⟩], [⟨.woodenNail, 24⟩], 1⟩

/-- Recipe TABLE: 6 plank + 12 nail + 4 bark → 1 table, duration 16. -/
def tableRecipe : Recipe Item :=
  ⟨[⟨.woodPlank, 6⟩, ⟨.woodenNail, 12⟩, ⟨.treeBark, 4⟩], [⟨.table, 1⟩], 16⟩

/-- Recipe PROCESS_TREE_TRUNK: 1 trunk → 8 plank + 16 bark, duration 4. -/
def processTrunkRecipe : Recipe Item :=
  ⟨[⟨.treeTrunk, 1⟩], [⟨.woodPlank, 8⟩, ⟨.treeBark, 16⟩], 4⟩

/-- Capacity 1024 for every item. -/
def caps1024 : Item → ℕ := fun _ => 1024

/-- Spec scenario 4 store: `WOOD_PLANK=6, WOODEN_NAIL=12, TREE_BARK=64`. -/
def scenario4Raw : Item → ℕ := fun i =>
  match i with
  | .woodPlank => 6
  | .woodenNail => 12
  | .treeBark => 64
  | _ => 0

/-- Spec scenario 4 lines: WoodenNail(128) and Table(128), idle. -/
def scenario4State : SimState Item :=
  ⟨[⟨woodenNailRecipe, 128, 0, 0⟩, ⟨tableRecipe, 128, 0, 0⟩], scenario4Raw⟩

/-- Spec scenario 3 store: `TREE_TRUNK=32`. -/
def scenario3Raw : Item → ℕ := fun i =>
  match i with
  | .treeTrunk => 32
  | _ => 0

/-- Spec scenario 3 lines: ProcessTrunk(128), idle. -/
def scenario3State : SimState Item := ⟨[⟨processTrunkRecipe, 128, 0, 0⟩], scenario3Raw⟩

/-- A recipe whose two ingredients are both "simple" items of its own
line: 1 itemB + 1 itemC → 1 itemD, duration 1. -/
def twoSimpleIngredientsRecipe : Recipe Item := ⟨[⟨.itemB, 1⟩, ⟨.itemC, 1⟩], [⟨.itemD, 1⟩], 1⟩

/-- Capacity 10 for every item. -/
def caps10 : Item → ℕ := fun _ => 10

/-- One idle line on `twoSimpleIngredientsRecipe` with one producer,
store `itemB=1, itemC=1`. -/
def twoSimpleState : SimState Item :=
  ⟨[⟨twoSimpleIngredientsRecipe, 1, 0, 0⟩],
    fun i => match i with | .itemB => 1 | .itemC => 1 | _ => 0⟩

/-- One idle WoodenNail(128) line over a store holding 6 plank. -/
def nailOnlyState : SimState Item :=
  ⟨[⟨woodenNailRecipe, 128, 0, 0⟩], fun i => match i with | .woodPlank => 6 | _ => 0⟩

/-- The final state of the debugless `timeDelta = 0` call on
`nailOnlyState` (a normal return). -/
def nailOnlyResult : SimState Item :=
  match updateFuel caps1024 100 nailOnlyState [0] 0 false with
  | .ok σ => σ
  | .error e => e.2

/-- An ingredient-less recipe: [] → 1 itemC, duration 2. -/
def stalledRecipe : Recipe Item := ⟨[], [⟨.itemC, 1⟩], 2⟩

/-- One output-stalled line (activeProducers = 1, progress = duration)
over an empty store. -/
def stalledState : SimState Item := ⟨[⟨stalledRecipe, 1, 1, 2⟩], fun _ => 0⟩

/-- Capacity 2 / raw 1 / capacity 5 / raw 10 stores for the storage
round-trip and clamping scenarios. -/
def capsTwo : Item → ℕ := fun _ => 2

/-- Constant raw store holding one of every item. -/
def rawOne : Item → ℕ := fun _ => 1

/-- Capacity 5 for every item (below `rawTen`). -/
def capsFive : Item → ℕ := fun _ => 5

/-- Constant raw store holding ten of every item (hidden stock once the
capacity is 5). -/
def rawTen : Item → ℕ := fun _ => 10

/-! ### The non-terminating scenario

Three lines: an ingredient-less producer of 2 itemC (duration 1), a
converter of 1 itemA into 1 itemC (duration 2), and an ingredient-less
producer of 1 itemA (duration 1, starting output-stalled). Capacities
itemA = 1, itemC = 2; store itemA = 1, itemC = 1. Calling `update` with
`timeDelta = 2` drives the `while` loop into an exact two-state cycle:
the minimal remaining delta alternates between `1` and `-1` (the
negative value arises because the loop subtracts the minimum from
trackers whose remainder is already `0`), so the loop never exits. -/

/-- Cycle line 0: [] → 2 itemC, duration 1. -/
def loopLine0Recipe : Recipe Item := ⟨[], [⟨.itemC, 2⟩], 1⟩

/-- Cycle line 1: 1 itemA → 1 itemC, duration 2. -/
def loopLine1Recipe : Recipe Item := ⟨[⟨.itemA, 1⟩], [⟨.itemC, 1⟩], 2⟩

/-- Cycle line 2: [] → 1 itemA, duration 1. -/
def loopLine2Recipe : Recipe Item := ⟨[], [⟨.itemA, 1⟩], 1⟩

/-- Capacities of the non-terminating scenario. -/
def loopCaps : Item → ℕ := fun i => match i with | .itemA => 1 | .itemC => 2 | _ => 0

/-- Start state of the non-terminating scenario: lines 0 and 1 idle and
active-producer-seeded, line 2 output-stalled; every line satisfies the
data-model invariants (`0 ≤ active ≤ total`, progress `0` or the
duration, progress `0` when idle). -/
def loopStartState : SimState Item :=
  ⟨[⟨loopLine0Recipe, 1, 1, 0⟩, ⟨loopLine1Recipe, 1, 1, 0⟩, ⟨loopLine2Recipe, 1, 1, 1⟩],
   fun i => match i with | .itemA => 1 | .itemC => 1 | _ => 0⟩

/-- The state after the phase prefix of the top-level call: line 0
output-stalled at progress 1, line 1 drained (progress 2, no active
producers), line 2 reset; store itemA = 1, itemC = 2. -/
def sigmaStall : SimState Item :=
  match runPhases loopCaps loopStartState [0, 1, 2] 2 false with
  | .ok (σ, _) => σ
  | .error e => e.2

/-- The tracker list entering the `while` loop (and recurring every
second iteration). -/
def trackersStart : List Tracker := [⟨0, 1⟩, ⟨1, 0⟩, ⟨2, 2⟩, ⟨1, 0⟩]

/-- The tracker list after the odd iterations of the cycle: note the
negative remainders of the two line-1 trackers. -/
def trackersOdd : List Tracker := [⟨0, 0⟩, ⟨1, -1⟩, ⟨2, 1⟩, ⟨1, -1⟩]

/-- `sigmaStall` with line 0's progress pulled back to 0 (the negative
time delta of the even iterations rewinds it). -/
def sigmaReset : SimState Item :=
  ⟨[⟨loopLine0Recipe, 1, 1, 0⟩, ⟨loopLine1Recipe, 1, 0, 2⟩, ⟨loopLine2Recipe, 1, 0, 0⟩],
   sigmaStall.raw⟩

/-- The production references the loop passes to the recursive calls
(line 1 twice — it has two trackers). -/
def loopInnerIdxs : List ℕ := [0, 1, 2, 1]

/-! ## Invariant predicates -/

/-- Every line sits at progress 0 and has a positive duration (the
data-model shape of an externally observed, non-stalled system). -/
def ProgressZero {I : Type} (σ : SimState I) : Prop :=
  ∀ p ∈ σ.lines, p.productionProgress = 0 ∧ 0 < p.recipe.productionDuration

/-- The left state holds no more of any item than the right one (raw,
unclamped). -/
def RawLE {I : Type} (σ' σ : SimState I) : Prop := ∀ j, σ'.raw j ≤ σ.raw j

/-- Every ingredient amount of every line's recipe is positive (a
data-model invariant). -/
def PositiveIngredients {I : Type} (σ : SimState I) : Prop :=
  ∀ p ∈ σ.lines, ∀ ia ∈ p.recipe.ingredients, 0 < ia.amount

/-- Sum of the requested amounts of item `Y` in one production's
regrouped satisfiable entry list. -/
def entriesNeed {I : Type} [DecidableEq I] (Y : I) (l : List (SatEntry I)) : ℕ :=
  ((l.filter fun s => decide (s.item = Y)).map SatEntry.requestedAmount).sum

/-- Sum of the requested amounts of item `Y` over the whole regrouped
per-production list of the satisfiable phase. -/
def satNeed {I : Type} [DecidableEq I] (Y : I) (l : List (ℕ × List (SatEntry I))) : ℕ :=
  (l.map fun kv => entriesNeed Y kv.2).sum

/-- The request-collector invariant: item keys are distinct; each
request's `totalRequestedAmount` is the sum of its entries' amounts;
each entry's amount is positive and bounded by the item's stored
amount; and each entry's production exists and lists the item among its
ingredients. -/
def GoodRequests {I : Type} [DecidableEq I] (caps : I → ℕ) (σ : SimState I)
    (reqs : List (I × ItemRequest)) : Prop :=
  (reqs.map Prod.fst).Nodup ∧
  ∀ kv ∈ reqs,
    kv.2.totalRequestedAmount = (kv.2.productions.map ProdEntry.requestedAmount).sum ∧
    ∀ e ∈ kv.2.productions,
      1 ≤ e.requestedAmount ∧ e.requestedAmount ≤ getStoredAmount caps σ.raw kv.1 ∧
      ∃ p, σ.lines.get? e.production = some p ∧ ∃ ia ∈ p.recipe.ingredients, ia.item = kv.1

/-! # Theorems -/

/-! ## Phase bookkeeping lemmas

How the scheduler phases affect the state: they withdraw (never
deposit), they only ever rewrite a line's `activeProducers`, and every
tracker they emit carries the call's `timeDelta` as its remainder. -/

/-- A member of the lines list after `setLine` is an old member or the
written line. -/
theorem mem_setLine {I : Type} {σ : SimState I} {i : ℕ} {q p' : RecipeProduction I}
    (h : p' ∈ (setLine σ i q).lines) : p' ∈ σ.lines ∨ p' = q := by
  simpa [setLine] using List.mem_or_eq_of_mem_set h

/-- A successful withdrawal never increases any raw amount. -/
theorem withdraw_raw_le {I : Type} [DecidableEq I] {caps raw : I → ℕ} {item : I}
    {amount : ℕ} {raw' : I → ℕ} {w : ℕ} (h : withdraw caps raw item amount = .ok (raw', w)) :
    ∀ j, raw' j ≤ raw j := by
  intro j
  by_cases ha : amount = 0
  · simp [withdraw, ha] at h
  · simp only [withdraw, ha, if_false, Except.ok.injEq, Prod.mk.injEq] at h
    obtain ⟨hr, -⟩ := h
    subst hr
    by_cases hj : j = item
    · subst hj
      rw [Function.update_same]
      exact le_trans (Nat.sub_le _ _) (min_le_left _ _)
    · rw [Function.update_noteq hj]

/-- `activationPass` leaves the raw store untouched. -/
theorem activationPass_raw {I : Type} [DecidableEq I] (caps : I → ℕ) (td : ℤ) :
    ∀ (idxs : List ℕ) (σ : SimState I) (acc : List Tracker),
    (activationPass caps td idxs σ acc).1.raw = σ.raw := by
  intro idxs
  induction idxs with
  | nil => intro σ acc; rfl
  | cons idx rest ih =>
    intro σ acc
    simp only [activationPass]
    cases σ.lines.get? idx with
    | none => exact ih σ acc
    | some p =>
      simp only
      split <;> split <;> rw [ih] <;> rfl

/-- `activationPass` preserves `ProgressZero` (it only rewrites
`activeProducers`). -/
theorem activationPass_progressZero {I : Type} [DecidableEq I] (caps : I → ℕ) (td : ℤ) :
    ∀ (idxs : List ℕ) (σ : SimState I) (acc : List Tracker),
    ProgressZero σ → ProgressZero (activationPass caps td idxs σ acc).1 := by
  intro idxs
  induction idxs with
  | nil => intro σ acc h; exact h
  | cons idx rest ih =>
    intro σ acc h
    simp only [activationPass]
    cases hp : σ.lines.get? idx with
    | none => exact ih σ acc h
    | some p =>
      have hσ1 : ∀ (p1 : RecipeProduction I),
          p1.productionProgress = p.productionProgress →
          p1.recipe = p.recipe → ProgressZero (setLine σ idx p1) := by
        intro p1 hprog hrec q hq
        rcases mem_setLine hq with hq' | hq'
        · exact h q hq'
        · subst hq'
          have := h p (List.get?_mem hp)
          rw [hprog, hrec]
          exact this
      simp only
      split <;> split <;> exact ih _ _ (hσ1 _ rfl rfl)

/-- Every tracker emitted by `activationPass` is inherited or carries
the call's `timeDelta`. -/
theorem activationPass_trackers {I : Type} [DecidableEq I] (caps : I → ℕ) (td : ℤ) :
    ∀ (idxs : List ℕ) (σ : SimState I) (acc : List Tracker),
    ∀ t ∈ (activationPass caps td idxs σ acc).2, t ∈ acc ∨ t.rem = td := by
  intro idxs
  induction idxs with
  | nil => intro σ acc t ht; exact Or.inl ht
  | cons idx rest ih =>
    intro σ acc t ht
    simp only [activationPass] at ht
    revert ht
    cases σ.lines.get? idx with
    | none => exact ih σ acc t
    | some p =>
      have happ : ∀ (σ1 : SimState I), t ∈ (activationPass caps td rest σ1
          (acc ++ [⟨idx, td⟩])).2 → t ∈ acc ∨ t.rem = td := by
        intro σ1 ht
        rcases ih _ _ t ht with h' | h'
        · rcases List.mem_append.mp h' with h'' | h''
          · exact Or.inl h''
          · right
            simp only [List.mem_singleton] at h''
            subst h''
            rfl
        · exact Or.inr h'
      simp only
      split <;> split
      · exact happ _
      · exact ih _ _ t
      · exact happ _
      · exact ih _ _ t

/-- Collapsing the appended tracker of a phase step. -/
theorem tracker_append_case {acc : List Tracker} {td : ℤ} {idx : ℕ} {t : Tracker}
    (h : t ∈ acc ++ [(⟨idx, td⟩ : Tracker)] ∨ t.rem = td) : t ∈ acc ∨ t.rem = td := by
  rcases h with h | h
  · rcases List.mem_append.mp h with h' | h'
    · exact Or.inl h'
    · right
      simp only [List.mem_singleton] at h'
      subst h'
      rfl
  · exact Or.inr h

/-- Rewriting only a line's `activeProducers` preserves
`ProgressZero`. -/
theorem progressZero_setActive {I : Type} {σ : SimState I} {idx : ℕ}
    {p : RecipeProduction I} (hp : σ.lines.get? idx = some p) (h : ProgressZero σ)
    (a : ℕ) :
    ProgressZero (setLine σ idx { p with activeProducers := a }) := by
  intro q hq
  rcases mem_setLine hq with hq' | hq'
  · exact h q hq'
  · subst hq'
    exact h p (List.get?_mem hp)

/-- `ProgressZero` ignores the raw store. -/
theorem progressZero_raw {I : Type} {σ : SimState I} (raw' : I → ℕ) (h : ProgressZero σ) :
    ProgressZero { σ with raw := raw' } :=
  fun q hq => h q hq

/-- `processSimpleItemRequests` withdraws only, rewrites only
`activeProducers`, and emits `timeDelta` trackers. -/
theorem processSimple_props {I : Type} [DecidableEq I] (caps : I → ℕ) (td : ℤ)
    (debug : Bool) :
    ∀ (l : List (I × ItemRequest)) (σ : SimState I) (acc : List Tracker)
      (σ' : SimState I) (trk : List Tracker),
    processSimpleItemRequests caps td debug l σ acc = .ok (σ', trk) →
    (∀ j, σ'.raw j ≤ σ.raw j) ∧ (ProgressZero σ → ProgressZero σ') ∧
      (∀ t ∈ trk, t ∈ acc ∨ t.rem = td) := by
  intro l
  induction l with
  | nil =>
    intro σ acc σ' trk h
    simp only [processSimpleItemRequests, Except.ok.injEq, Prod.mk.injEq] at h
    obtain ⟨h1, h2⟩ := h
    subst h1
    subst h2
    exact ⟨fun j => le_refl _, fun h => h, fun t ht => Or.inl ht⟩
  | cons kv rest ih =>
    intro σ acc σ' trk h
    obtain ⟨item, req⟩ := kv
    simp only [processSimpleItemRequests] at h
    split at h
    · simp at h
    · split at h
      · simp at h
      · rename_i entry tail
        split at h
        · simp at h
        · rename_i p hp
          split at h
          · simp at h
          · split at h
            · simp at h
            · split at h
              · simp at h
              · rename_i raw1 avail hw
                split at h
                · simp at h
                · obtain ⟨hr, hz, ht⟩ := ih _ _ _ _ h
                  refine ⟨?_, ?_, ?_⟩
                  · intro j
                    exact le_trans (hr j) (withdraw_raw_le hw j)
                  · intro hpz
                    exact hz (progressZero_setActive hp (progressZero_raw raw1 hpz) _)
                  · intro t htm
                    exact tracker_append_case (ht t htm)

/-- `satWithdrawals` withdraws only (state lines untouched). -/
theorem satWithdrawals_props {I : Type} [DecidableEq I] (caps : I → ℕ) (debug : Bool) :
    ∀ (l : List (SatEntry I)) (σ : SimState I) (σ' : SimState I),
    satWithdrawals caps debug l σ = .ok σ' →
    (∀ j, σ'.raw j ≤ σ.raw j) ∧ σ'.lines = σ.lines := by
  intro l
  induction l with
  | nil =>
    intro σ σ' h
    simp only [satWithdrawals, Except.ok.injEq] at h
    subst h
    exact ⟨fun j => le_refl _, rfl⟩
  | cons entry rest ih =>
    intro σ σ' h
    simp only [satWithdrawals] at h
    split at h
    · simp at h
    · rename_i raw1 avail hw
      split at h
      · simp at h
      · obtain ⟨hr, hl⟩ := ih _ _ h
        exact ⟨fun j => le_trans (hr j) (withdraw_raw_le hw j), hl⟩

/-- `satProductionsLoop` withdraws only, rewrites only
`activeProducers`, and emits `timeDelta` trackers. -/
theorem satProductionsLoop_props {I : Type} [DecidableEq I] (caps : I → ℕ) (td : ℤ)
    (debug : Bool) :
    ∀ (l : List (ℕ × List (SatEntry I))) (σ : SimState I) (acc : List Tracker)
      (σ' : SimState I) (trk : List Tracker),
    satProductionsLoop caps td debug l σ acc = .ok (σ', trk) →
    (∀ j, σ'.raw j ≤ σ.raw j) ∧ (ProgressZero σ → ProgressZero σ') ∧
      (∀ t ∈ trk, t ∈ acc ∨ t.rem = td) := by
  intro l
  induction l with
  | nil =>
    intro σ acc σ' trk h
    simp only [satProductionsLoop, Except.ok.injEq, Prod.mk.injEq] at h
    obtain ⟨h1, h2⟩ := h
    subst h1
    subst h2
    exact ⟨fun j => le_refl _, fun h => h, fun t ht => Or.inl ht⟩
  | cons kv rest ih =>
    intro σ acc σ' trk h
    obtain ⟨idx, entries⟩ := kv
    simp only [satProductionsLoop] at h
    split at h
    · simp at h
    · rename_i σ1 hw
      split at h
      · simp at h
      · split at h
        · simp at h
        · rename_i p hp
          obtain ⟨hr1, hl1⟩ := satWithdrawals_props caps debug _ σ σ1 hw
          obtain ⟨hr, hz, ht⟩ := ih _ _ _ _ h
          refine ⟨?_, ?_, ?_⟩
          · intro j
            exact le_trans (hr j) (hr1 j)
          · intro hpz
            have hpz1 : ProgressZero σ1 := by
              intro q hq
              rw [hl1] at hq
              exact hpz q hq
            have hp' : σ1.lines.get? idx = some p := hp
            exact hz (progressZero_setActive hp' hpz1 _)
          · intro t htm
            exact tracker_append_case (ht t htm)

/-- `unsatWithdrawals` withdraws only. -/
theorem unsatWithdrawals_props {I : Type} [DecidableEq I] (caps : I → ℕ) (debug : Bool)
    (producers : ℕ) :
    ∀ (l : List (ItemAmount I)) (σ : SimState I) (σ' : SimState I),
    unsatWithdrawals caps debug producers l σ = .ok σ' →
    (∀ j, σ'.raw j ≤ σ.raw j) ∧ σ'.lines = σ.lines := by
  intro l
  induction l with
  | nil =>
    intro σ σ' h
    simp only [unsatWithdrawals, Except.ok.injEq] at h
    subst h
    exact ⟨fun j => le_refl _, rfl⟩
  | cons ia rest ih =>
    intro σ σ' h
    simp only [unsatWithdrawals] at h
    split at h
    · simp at h
    · rename_i raw1 avail hw
      split at h
      · simp at h
      · obtain ⟨hr, hl⟩ := ih _ _ h
        exact ⟨fun j => le_trans (hr j) (withdraw_raw_le hw j), hl⟩

/-- `unsatProductionsLoop` withdraws only, rewrites only
`activeProducers`, and emits `timeDelta` trackers. -/
theorem unsatProductionsLoop_props {I : Type} [DecidableEq I] (caps : I → ℕ) (td : ℤ)
    (debug : Bool) :
    ∀ (l : List (ℕ × ℕ)) (σ : SimState I) (acc : List Tracker)
      (σ' : SimState I) (trk : List Tracker),
    unsatProductionsLoop caps td debug l σ acc = .ok (σ', trk) →
    (∀ j, σ'.raw j ≤ σ.raw j) ∧ (ProgressZero σ → ProgressZero σ') ∧
      (∀ t ∈ trk, t ∈ acc ∨ t.rem = td) := by
  intro l
  induction l with
  | nil =>
    intro σ acc σ' trk h
    simp only [unsatProductionsLoop, Except.ok.injEq, Prod.mk.injEq] at h
    obtain ⟨h1, h2⟩ := h
    subst h1
    subst h2
    exact ⟨fun j => le_refl _, fun h => h, fun t ht => Or.inl ht⟩
  | cons kv rest ih =>
    intro σ acc σ' trk h
    obtain ⟨idx, producers⟩ := kv
    simp only [unsatProductionsLoop] at h
    split at h
    · simp at h
    · rename_i p hp
      split at h
      · simp at h
      · rename_i σ1 hw
        obtain ⟨hr1, hl1⟩ := unsatWithdrawals_props caps debug producers
          p.recipe.ingredients σ σ1 hw
        obtain ⟨hr, hz, ht⟩ := ih _ _ _ _ h
        refine ⟨?_, ?_, ?_⟩
        · intro j
          exact le_trans (hr j) (hr1 j)
        · intro hpz
          have hpz1 : ProgressZero σ1 := by
            intro q hq
            rw [hl1] at hq
            exact hpz q hq
          have hp' : σ1.lines.get? idx = some p := by
            rw [hl1]
            exact hp
          exact hz (progressZero_setActive hp' hpz1 _)
        · intro t htm
          exact tracker_append_case (ht t htm)

/-- `processUnsatGroups` withdraws only, rewrites only
`activeProducers`, and emits `timeDelta` trackers. -/
theorem processUnsatGroups_props {I : Type} [DecidableEq I] (caps : I → ℕ) (td : ℤ)
    (debug : Bool) :
    ∀ (groups : List (List (I × ItemRequest))) (σ : SimState I) (acc : List Tracker)
      (σ' : SimState I) (trk : List Tracker),
    processUnsatGroups caps td debug groups σ acc = .ok (σ', trk) →
    (∀ j, σ'.raw j ≤ σ.raw j) ∧ (ProgressZero σ → ProgressZero σ') ∧
      (∀ t ∈ trk, t ∈ acc ∨ t.rem = td) := by
  intro groups
  induction groups with
  | nil =>
    intro σ acc σ' trk h
    simp only [processUnsatGroups, Except.ok.injEq, Prod.mk.injEq] at h
    obtain ⟨h1, h2⟩ := h
    subst h1
    subst h2
    exact ⟨fun j => le_refl _, fun h => h, fun t ht => Or.inl ht⟩
  | cons group rest ih =>
    intro σ acc σ' trk h
    simp only [processUnsatGroups] at h
    split at h
    · simp at h
    · rename_i σ1 acc1 hg
      obtain ⟨hr1, hz1, ht1⟩ := unsatProductionsLoop_props caps td debug _ _ _ _ _ hg
      obtain ⟨hr, hz, ht⟩ := ih _ _ _ _ h
      refine ⟨?_, ?_, ?_⟩
      · intro j
        exact le_trans (hr j) (hr1 j)
      · intro hpz
        exact hz (hz1 hpz)
      · intro t htm
        rcases ht t htm with h' | h'
        · exact ht1 t h'
        · exact Or.inr h'

/-- With every tracker remainder 0 and every line idle at progress 0,
`updateProductions` neither deposits nor moves progress: the raw store
is unchanged, `ProgressZero` is kept, and every emitted tracker has
remainder 0. -/
theorem updateProductions_zero {I : Type} [DecidableEq I] (caps : I → ℕ) :
    ∀ (trackers : List Tracker) (σ : SimState I) (acc : List Tracker)
      (σ' : SimState I) (out : List Tracker),
    ProgressZero σ → (∀ t ∈ trackers, t.rem = 0) →
    updateProductions caps trackers σ acc = .ok (σ', out) →
    σ'.raw = σ.raw ∧ ProgressZero σ' ∧ (∀ t ∈ out, t ∈ acc ∨ t.rem = 0) := by
  intro trackers
  induction trackers with
  | nil =>
    intro σ acc σ' out hpz hrem h
    simp only [updateProductions, Except.ok.injEq, Prod.mk.injEq] at h
    obtain ⟨h1, h2⟩ := h
    subst h1
    subst h2
    exact ⟨rfl, hpz, fun t ht => Or.inl ht⟩
  | cons t rest ih =>
    intro σ acc σ' out hpz hrem h
    simp only [updateProductions] at h
    split at h
    · simp at h
    · rename_i p hp
      obtain ⟨hprog, hdur⟩ := hpz p (List.get?_mem hp)
      have ht0 : t.rem = 0 := hrem t (List.mem_cons_self _ _)
      rw [hprog, ht0] at h
      rw [sub_zero, min_eq_left hdur.le, add_zero, sub_zero] at h
      rw [if_neg (ne_of_lt hdur)] at h
      have hrem' : ∀ u ∈ rest, u.rem = 0 := fun u hu => hrem u (List.mem_cons_of_mem _ hu)
      have hpz1 : ProgressZero (setLine σ t.prodIdx { p with productionProgress := 0 }) := by
        intro q hq
        rcases mem_setLine hq with hq' | hq'
        · exact hpz q hq'
        · subst hq'
          exact ⟨rfl, hdur⟩
      obtain ⟨hraw, hpz', hout⟩ := ih _ _ _ _ hpz1 hrem' h
      refine ⟨?_, hpz', ?_⟩
      · rw [hraw]
        rfl
      · intro u hu
        rcases hout u hu with h' | h'
        · exact tracker_append_case (Or.inl h')
        · exact Or.inr h'

/-- At `timeDelta = 0` the phase prefix only activates lines and
withdraws their ingredients: every progress stays 0, the raw store can
only shrink, and the loop's tracker list comes out empty. -/
theorem runPhases_zero {I : Type} [DecidableEq I] (caps : I → ℕ) (σ : SimState I)
    (idxs : List ℕ) (debug : Bool) (σ5 : SimState I) (toUpdate : List Tracker)
    (hpz : ProgressZero σ)
    (h : runPhases caps σ idxs 0 debug = .ok (σ5, toUpdate)) :
    ProgressZero σ5 ∧ (∀ j, σ5.raw j ≤ σ.raw j) ∧ toUpdate = [] := by
  simp only [runPhases] at h
  split at h
  · simp at h
  · rename_i r1 σ1 trackers0 hsimple
    split at h
    · simp at h
    · rename_i r2 σ2 trackers1 hsat
      split at h
      · simp at h
      · rename_i r3 σ3 trackers2 hunsat
        split at h
        · simp at h
        · rename_i r4 σ4 trackers3 hupd
          simp only [Except.ok.injEq, Prod.mk.injEq] at h
          obtain ⟨h5, hfil⟩ := h
          subst h5
          have hpz1 : ProgressZero (activationPass caps 0 idxs σ []).1 :=
            activationPass_progressZero caps 0 idxs σ [] hpz
          have hraw1 : (activationPass caps 0 idxs σ []).1.raw = σ.raw :=
            activationPass_raw caps 0 idxs σ []
          have htr0 : ∀ t ∈ (activationPass caps 0 idxs σ []).2, t.rem = 0 := by
            intro t ht
            rcases activationPass_trackers caps 0 idxs σ [] t ht with h' | h'
            · simp at h'
            · exact h'
          obtain ⟨hr1, hz1, ht1⟩ := processSimple_props caps 0 debug _ _ _ _ _ hsimple
          obtain ⟨hr2, hz2, ht2⟩ := satProductionsLoop_props caps 0 debug _ _ _ _ _ hsat
          obtain ⟨hr3, hz3, ht3⟩ := processUnsatGroups_props caps 0 debug _ _ _ _ _ hunsat
          have htr1 : ∀ t ∈ trackers0, t.rem = 0 := by
            intro t ht
            rcases ht1 t ht with h' | h'
            · exact htr0 t h'
            · exact h'
          have htr2 : ∀ t ∈ trackers1, t.rem = 0 := by
            intro t ht
            rcases ht2 t ht with h' | h'
            · exact htr1 t h'
            · exact h'
          have htr3 : ∀ t ∈ trackers2, t.rem = 0 := by
            intro t ht
            rcases ht3 t ht with h' | h'
            · exact htr2 t h'
            · exact h'
          have hpz3 : ProgressZero σ3 := hz3 (hz2 (hz1 hpz1))
          obtain ⟨hraw5, hpz5, hout5⟩ := updateProductions_zero caps _ _ _ _ _ hpz3 htr3 hupd
          refine ⟨hpz5, ?_, ?_⟩
          · intro j
            rw [hraw5]
            calc σ3.raw j ≤ σ2.raw j := hr3 j
              _ ≤ σ1.raw j := hr2 j
              _ ≤ (activationPass caps 0 idxs σ []).1.raw j := hr1 j
              _ = σ.raw j := by rw [hraw1]
          · rw [← hfil]
            apply List.filter_eq_nil_iff.mpr
            intro t ht
            have hrt : t.rem = 0 := by
              rcases hout5 t ht with h' | h'
              · simp at h'
              · exact h'
            have hd : (decide (t.rem ≠ 0)) = false := by simp [hrt]
            simp only [keepTracker, hd, Bool.false_or]
            cases hgt : σ4.lines.get? t.prodIdx with
            | none => simp
            | some q =>
              obtain ⟨hq0, hqd⟩ := hpz5 q (List.get?_mem hgt)
              simp only [hq0]
              simp [ne_of_lt hqd]

/-! ## Generic line-property preservation

Every scheduler phase rewrites lines only through
`{ p with activeProducers := a }`, and `updateProductions` only through
`{ p with activeProducers := a, productionProgress := g }`; hence any
per-line property invariant under such rewrites (e.g. facts about the
recipe) survives the whole pipeline. -/

/-- `activationPass` preserves any property invariant under
`activeProducers` rewrites. -/
theorem activationPass_linesProp {I : Type} [DecidableEq I] (caps : I → ℕ) (td : ℤ)
    (Q : RecipeProduction I → Prop)
    (hQ : ∀ (p : RecipeProduction I) (a : ℕ), Q p → Q { p with activeProducers := a }) :
    ∀ (idxs : List ℕ) (σ : SimState I) (acc : List Tracker),
    (∀ p ∈ σ.lines, Q p) → ∀ p ∈ (activationPass caps td idxs σ acc).1.lines, Q p := by
  intro idxs
  induction idxs with
  | nil => intro σ acc h; exact h
  | cons idx rest ih =>
    intro σ acc h
    simp only [activationPass]
    cases hp : σ.lines.get? idx with
    | none => exact ih σ acc h
    | some p =>
      have hmem := h p (List.get?_mem hp)
      have hset : ∀ (p1 : RecipeProduction I), Q p1 →
          ∀ q ∈ (setLine σ idx p1).lines, Q q := by
        intro p1 hp1 q hq
        rcases mem_setLine hq with hq' | hq'
        · exact h q hq'
        · subst hq'
          exact hp1
      simp only
      split <;> split
      · exact ih _ _ (hset _ (hQ p _ hmem))
      · exact ih _ _ (hset _ (hQ p _ hmem))
      · exact ih _ _ (hset _ hmem)
      · exact ih _ _ (hset _ hmem)

/-- `processSimpleItemRequests` preserves any property invariant under
`activeProducers` rewrites. -/
theorem processSimple_linesProp {I : Type} [DecidableEq I] (caps : I → ℕ) (td : ℤ)
    (debug : Bool) (Q : RecipeProduction I → Prop)
    (hQ : ∀ (p : RecipeProduction I) (a : ℕ), Q p → Q { p with activeProducers := a }) :
    ∀ (l : List (I × ItemRequest)) (σ : SimState I) (acc : List Tracker)
      (σ' : SimState I) (trk : List Tracker),
    (∀ p ∈ σ.lines, Q p) →
    processSimpleItemRequests caps td debug l σ acc = .ok (σ', trk) →
    ∀ p ∈ σ'.lines, Q p := by
  intro l
  induction l with
  | nil =>
    intro σ acc σ' trk hσ h
    simp only [processSimpleItemRequests, Except.ok.injEq, Prod.mk.injEq] at h
    obtain ⟨h1, -⟩ := h
    subst h1
    exact hσ
  | cons kv rest ih =>
    intro σ acc σ' trk hσ h
    obtain ⟨item, req⟩ := kv
    simp only [processSimpleItemRequests] at h
    split at h
    · simp at h
    · split at h
      · simp at h
      · rename_i entry tail
        split at h
        · simp at h
        · rename_i p hp
          split at h
          · simp at h
          · split at h
            · simp at h
            · split at h
              · simp at h
              · rename_i raw1 avail hw
                split at h
                · simp at h
                · refine ih _ _ _ _ ?_ h
                  intro q hq
                  rcases mem_setLine hq with hq' | hq'
                  · exact hσ q hq'
                  · subst hq'
                    exact hQ p _ (hσ p (List.get?_mem hp))

/-- `satProductionsLoop` preserves any property invariant under
`activeProducers` rewrites. -/
theorem satProductionsLoop_linesProp {I : Type} [DecidableEq I] (caps : I → ℕ) (td : ℤ)
    (debug : Bool) (Q : RecipeProduction I → Prop)
    (hQ : ∀ (p : RecipeProduction I) (a : ℕ), Q p → Q { p with activeProducers := a }) :
    ∀ (l : List (ℕ × List (SatEntry I))) (σ : SimState I) (acc : List Tracker)
      (σ' : SimState I) (trk : List Tracker),
    (∀ p ∈ σ.lines, Q p) →
    satProductionsLoop caps td debug l σ acc = .ok (σ', trk) →
    ∀ p ∈ σ'.lines, Q p := by
  intro l
  induction l with
  | nil =>
    intro σ acc σ' trk hσ h
    simp only [satProductionsLoop, Except.ok.injEq, Prod.mk.injEq] at h
    obtain ⟨h1, -⟩ := h
    subst h1
    exact hσ
  | cons kv rest ih =>
    intro σ acc σ' trk hσ h
    obtain ⟨idx, entries⟩ := kv
    simp only [satProductionsLoop] at h
    split at h
    · simp at h
    · rename_i σ1 hw
      split at h
      · simp at h
      · split at h
        · simp at h
        · rename_i p hp
          obtain ⟨-, hl1⟩ := satWithdrawals_props caps debug _ σ σ1 hw
          refine ih _ _ _ _ ?_ h
          intro q hq
          rcases mem_setLine hq with hq' | hq'
          · rw [hl1] at hq'
            exact hσ q hq'
          · subst hq'
            refine hQ p _ (hσ p ?_)
            have : σ1.lines.get? idx = some p := hp
            rw [hl1] at this
            exact List.get?_mem this

/-- `unsatProductionsLoop` preserves any property invariant under
`activeProducers` rewrites. -/
theorem unsatProductionsLoop_linesProp {I : Type} [DecidableEq I] (caps : I → ℕ) (td : ℤ)
    (debug : Bool) (Q : RecipeProduction I → Prop)
    (hQ : ∀ (p : RecipeProduction I) (a : ℕ), Q p → Q { p with activeProducers := a }) :
    ∀ (l : List (ℕ × ℕ)) (σ : SimState I) (acc : List Tracker)
      (σ' : SimState I) (trk : List Tracker),
    (∀ p ∈ σ.lines, Q p) →
    unsatProductionsLoop caps td debug l σ acc = .ok (σ', trk) →
    ∀ p ∈ σ'.lines, Q p := by
  intro l
  induction l with
  | nil =>
    intro σ acc σ' trk hσ h
    simp only [unsatProductionsLoop, Except.ok.injEq, Prod.mk.injEq] at h
    obtain ⟨h1, -⟩ := h
    subst h1
    exact hσ
  | cons kv rest ih =>
    intro σ acc σ' trk hσ h
    obtain ⟨idx, producers⟩ := kv
    simp only [unsatProductionsLoop] at h
    split at h
    · simp at h
    · rename_i p hp
      split at h
      · simp at h
      · rename_i σ1 hw
        obtain ⟨-, hl1⟩ := unsatWithdrawals_props caps debug producers _ σ σ1 hw
        refine ih _ _ _ _ ?_ h
        intro q hq
        rcases mem_setLine hq with hq' | hq'
        · rw [hl1] at hq'
          exact hσ q hq'
        · subst hq'
          exact hQ p _ (hσ p (List.get?_mem hp))

/-- `processUnsatGroups` preserves any property invariant under
`activeProducers` rewrites. -/
theorem processUnsatGroups_linesProp {I : Type} [DecidableEq I] (caps : I → ℕ) (td : ℤ)
    (debug : Bool) (Q : RecipeProduction I → Prop)
    (hQ : ∀ (p : RecipeProduction I) (a : ℕ), Q p → Q { p with activeProducers := a }) :
    ∀ (groups : List (List (I × ItemRequest))) (σ : SimState I) (acc : List Tracker)
      (σ' : SimState I) (trk : List Tracker),
    (∀ p ∈ σ.lines, Q p) →
    processUnsatGroups caps td debug groups σ acc = .ok (σ', trk) →
    ∀ p ∈ σ'.lines, Q p := by
  intro groups
  induction groups with
  | nil =>
    intro σ acc σ' trk hσ h
    simp only [processUnsatGroups, Except.ok.injEq, Prod.mk.injEq] at h
    obtain ⟨h1, -⟩ := h
    subst h1
    exact hσ
  | cons group rest ih =>
    intro σ acc σ' trk hσ h
    simp only [processUnsatGroups] at h
    split at h
    · simp at h
    · rename_i σ1 acc1 hg
      exact ih _ _ _ _ (unsatProductionsLoop_linesProp caps td debug Q hQ _ _ _ _ _ hσ hg) h

/-- `depositResults` touches only the raw store. -/
theorem depositResults_lines {I : Type} [DecidableEq I] (caps : I → ℕ) (producers : ℕ) :
    ∀ (l : List (ItemAmount I)) (σ σ' : SimState I),
    depositResults caps producers l σ = .ok σ' → σ'.lines = σ.lines := by
  intro l
  induction l with
  | nil =>
    intro σ σ' h
    simp only [depositResults, Except.ok.injEq] at h
    subst h
    rfl
  | cons ia rest ih =>
    intro σ σ' h
    simp only [depositResults] at h
    split at h
    · simp at h
    · simpa using ih _ _ h

/-- `updateProductions` preserves any property invariant under joint
`activeProducers`/`productionProgress` rewrites. -/
theorem updateProductions_linesProp {I : Type} [DecidableEq I] (caps : I → ℕ)
    (Q : RecipeProduction I → Prop)
    (hQ : ∀ (p : RecipeProduction I) (a : ℕ) (g : ℤ), Q p →
      Q { p with activeProducers := a, productionProgress := g }) :
    ∀ (trackers : List Tracker) (σ : SimState I) (acc : List Tracker)
      (σ' : SimState I) (out : List Tracker),
    (∀ p ∈ σ.lines, Q p) →
    updateProductions caps trackers σ acc = .ok (σ', out) →
    ∀ p ∈ σ'.lines, Q p := by
  intro trackers
  induction trackers with
  | nil =>
    intro σ acc σ' out hσ h
    simp only [updateProductions, Except.ok.injEq, Prod.mk.injEq] at h
    obtain ⟨h1, -⟩ := h
    subst h1
    exact hσ
  | cons t rest ih =>
    intro σ acc σ' out hσ h
    simp only [updateProductions] at h
    split at h
    · simp at h
    · rename_i p hp
      have hpq := hσ p (List.get?_mem hp)
      have hset1 : ∀ (g : ℤ),
          ∀ q ∈ (setLine σ t.prodIdx { p with productionProgress := g }).lines, Q q := by
        intro g q hq
        rcases mem_setLine hq with hq' | hq'
        · exact hσ q hq'
        · subst hq'
          exact hQ p p.activeProducers g hpq
      split at h
      · split at h
        · split at h
          · simp at h
          · rename_i σ2 hdep
            refine ih _ _ _ _ ?_ h
            intro q hq
            rcases mem_setLine hq with hq' | hq'
            · have hl2 := depositResults_lines caps _ _ _ _ hdep
              rw [hl2] at hq'
              exact hset1 _ q hq'
            · subst hq'
              exact hQ p _ _ hpq
        · exact ih _ _ _ _ (hset1 _) h
      · exact ih _ _ _ _ (hset1 _) h

/-! ## C4 infrastructure — association-list facts -/

/-- `alGet` misses exactly the keys absent from the list. -/
theorem alGet_none_iff {I : Type} [DecidableEq I] {α : Type} :
    ∀ (m : List (I × α)) (k : I), alGet m k = none ↔ k ∉ m.map Prod.fst := by
  intro m
  induction m with
  | nil => intro k; simp [alGet]
  | cons kv rest ih =>
    intro k
    obtain ⟨k0, v0⟩ := kv
    by_cases hk : k0 = k
    · subst hk
      simp [alGet]
    · simp only [alGet, if_neg hk, List.map_cons, List.mem_cons, not_or]
      rw [ih]
      constructor
      · intro h
        exact ⟨fun he => hk he.symm, h⟩
      · intro h
        exact h.2

/-- A hit of `alGet` is a member of the list. -/
theorem alGet_mem {I : Type} [DecidableEq I] {α : Type} :
    ∀ (m : List (I × α)) (k : I) (v : α), alGet m k = some v → (k, v) ∈ m := by
  intro m
  induction m with
  | nil => intro k v h; simp [alGet] at h
  | cons kv rest ih =>
    intro k v h
    obtain ⟨k0, v0⟩ := kv
    simp only [alGet] at h
    split at h
    · rename_i hk
      injection h with h1
      subst hk
      subst h1
      exact List.mem_cons_self _ _
    · exact List.mem_cons_of_mem _ (ih k v h)

/-- With distinct keys, membership determines the `alGet` result. -/
theorem alGet_of_mem_nodup {I : Type} [DecidableEq I] {α : Type} :
    ∀ (m : List (I × α)) (k : I) (v : α), (m.map Prod.fst).Nodup → (k, v) ∈ m →
    alGet m k = some v := by
  intro m
  induction m with
  | nil => intro k v _ h; simp at h
  | cons kv rest ih =>
    intro k v hnd hm
    obtain ⟨k0, v0⟩ := kv
    simp only [List.map_cons, List.nodup_cons] at hnd
    rcases List.mem_cons.mp hm with h | h
    · obtain ⟨h1, h2⟩ := Prod.mk.injEq .. ▸ h
      subst h1
      subst h2
      simp [alGet]
    · have hk : k0 ≠ k := by
        intro he
        subst he
        exact hnd.1 (List.mem_map_of_mem Prod.fst h)
      simp only [alGet, if_neg hk]
      exact ih k v hnd.2 h

/-- A member of `alSet m k v` is an old member or the written pair. -/
theorem mem_alSet_elim {I : Type} [DecidableEq I] {α : Type} :
    ∀ (m : List (I × α)) (k : I) (v : α) (kv : I × α),
    kv ∈ alSet m k v → kv ∈ m ∨ kv = (k, v) := by
  intro m
  induction m with
  | nil =>
    intro k v kv h
    simp only [alSet, List.mem_singleton] at h
    exact Or.inr h
  | cons kw rest ih =>
    intro k v kv h
    obtain ⟨k0, w⟩ := kw
    simp only [alSet] at h
    split at h
    · rename_i hk
      subst hk
      rcases List.mem_cons.mp h with h1 | h1
      · exact Or.inr h1
      · exact Or.inl (List.mem_cons_of_mem _ h1)
    · rcases List.mem_cons.mp h with h1 | h1
      · subst h1
        exact Or.inl (List.mem_cons_self _ _)
      · rcases ih k v kv h1 with h2 | h2
        · exact Or.inl (List.mem_cons_of_mem _ h2)
        · exact Or.inr h2

/-- `alSet` keeps the key list, appending the key only when absent. -/
theorem alSet_keys {I : Type} [DecidableEq I] {α : Type} :
    ∀ (m : List (I × α)) (k : I) (v : α),
    (alSet m k v).map Prod.fst =
      if k ∈ m.map Prod.fst then m.map Prod.fst else m.map Prod.fst ++ [k] := by
  intro m
  induction m with
  | nil => intro k v; simp [alSet]
  | cons kw rest ih =>
    intro k v
    obtain ⟨k0, w⟩ := kw
    by_cases hk : k0 = k
    · subst hk
      simp [alSet]
    · simp only [alSet, if_neg hk, List.map_cons, ih]
      have hne : ¬k = k0 := fun he => hk he.symm
      by_cases hm : k ∈ rest.map Prod.fst
      · simp [hm, hne]
      · simp [hm, hne]

/-- `alSet` preserves distinctness of the keys. -/
theorem alSet_keys_nodup {I : Type} [DecidableEq I] {α : Type}
    (m : List (I × α)) (k : I) (v : α) (h : (m.map Prod.fst).Nodup) :
    ((alSet m k v).map Prod.fst).Nodup := by
  rw [alSet_keys]
  split
  · exact h
  · rename_i hk
    refine List.Nodup.append h (List.nodup_singleton k) ?_
    intro a ha hb
    simp only [List.mem_singleton] at hb
    subst hb
    exact hk ha

/-! ## C4 infrastructure — the `maxSafeProducers` bound -/

/-- `minENat` is a lower bound of every member. -/
theorem minENat_le_of_mem : ∀ (l : List ℕ) (x : ℕ), x ∈ l → minENat l ≤ (x : ℕ∞) := by
  intro l
  induction l with
  | nil => intro x h; simp at h
  | cons n rest ih =>
    intro x h
    rcases List.mem_cons.mp h with h | h
    · subst h
      exact min_le_left _ _
    · exact le_trans (min_le_right _ _) (ih x h)

/-- Collapsing an `ℕ∞` bound to `ℕ` through `ENat.toNat`. -/
theorem enat_toNat_le {e : ℕ∞} {n : ℕ} (h : e ≤ (n : ℕ∞)) : ENat.toNat e ≤ n := by
  induction e using ENat.recTopCoe with
  | top => simp at h
  | coe m =>
    rw [ENat.toNat_coe]
    exact_mod_cast h

/-- `maxSafeProducers` never exceeds what the stored amount of any one
ingredient can sustain. -/
theorem maxSafe_le_div {I : Type} (caps raw : I → ℕ) (p : RecipeProduction I)
    {ia : ItemAmount I} (h : ia ∈ p.recipe.ingredients) :
    maxSafeProducers caps raw p ≤ getStoredAmount caps raw ia.item / ia.amount := by
  apply enat_toNat_le
  refine le_trans (min_le_right _ _) (le_trans (min_le_left _ _) ?_)
  exact minENat_le_of_mem _ _
    (List.mem_map_of_mem (fun ia => getStoredAmount caps raw ia.item / ia.amount) h)

/-- The collector's requested amount for one ingredient fits the stored
amount. -/
theorem requested_le_stored {I : Type} (caps raw : I → ℕ) (p : RecipeProduction I)
    {ia : ItemAmount I} (h : ia ∈ p.recipe.ingredients) :
    ia.amount * maxSafeProducers caps raw p ≤ getStoredAmount caps raw ia.item := by
  calc ia.amount * maxSafeProducers caps raw p
      ≤ ia.amount * (getStoredAmount caps raw ia.item / ia.amount) :=
        Nat.mul_le_mul_left _ (maxSafe_le_div caps raw p h)
    _ = getStoredAmount caps raw ia.item / ia.amount * ia.amount := Nat.mul_comm _ _
    _ ≤ getStoredAmount caps raw ia.item := Nat.div_mul_le_self _ _

/-! ## C4 infrastructure — store-operation inversion -/

/-- Inversion of a successful `withdraw`. -/
theorem withdraw_ok_eq {I : Type} [DecidableEq I] {caps raw : I → ℕ} {item : I}
    {amount : ℕ} {rawOut : I → ℕ} {w : ℕ}
    (h : withdraw caps raw item amount = .ok (rawOut, w)) :
    amount ≠ 0 ∧ w = min amount (getStoredAmount caps raw item) ∧
    rawOut = Function.update raw item (getStoredAmount caps raw item - w) := by
  by_cases ha : amount = 0
  · simp [withdraw, ha] at h
  · simp only [withdraw, ha, if_false, Except.ok.injEq, Prod.mk.injEq] at h
    refine ⟨ha, h.2.symm, ?_⟩
    rw [← h.2]
    exact h.1.symm

/-- `withdraw` throws only its range error. -/
theorem withdraw_error_eq {I : Type} [DecidableEq I] {caps raw : I → ℕ} {item : I}
    {amount : ℕ} {e : Err} (h : withdraw caps raw item amount = .error e) :
    e = Err.rangeError := by
  by_cases ha : amount = 0
  · simp only [withdraw, ha, if_true, Except.error.injEq] at h
    exact h.symm
  · simp [withdraw, ha] at h

/-- `deposit` throws only its range error. -/
theorem deposit_error_eq {I : Type} [DecidableEq I] {caps raw : I → ℕ} {item : I}
    {amount : ℕ} {e : Err} (h : deposit caps raw item amount = .error e) :
    e = Err.rangeError := by
  by_cases ha : amount = 0
  · simp only [deposit, ha, if_true, Except.error.injEq] at h
    exact h.symm
  · simp [deposit, ha] at h

/-! ## C4 infrastructure — the request-collector invariant -/

/-- The empty request map is well formed. -/
theorem goodRequests_nil {I : Type} [DecidableEq I] (caps : I → ℕ) (σ : SimState I) :
    GoodRequests caps σ [] := by
  constructor
  · simp
  · intro kv hkv
    simp at hkv

/-- One `alSet` step of `collectIngredients` keeps the invariant. -/
theorem goodRequests_step {I : Type} [DecidableEq I] {caps : I → ℕ} {σ : SimState I}
    {acc : List (I × ItemRequest)} (hacc : GoodRequests caps σ acc)
    {idx maxSafe : ℕ} {p : RecipeProduction I} (hp : σ.lines.get? idx = some p)
    (hm : 1 ≤ maxSafe) {ing : ItemAmount I} (hmem : ing ∈ p.recipe.ingredients)
    (hpos : 0 < ing.amount)
    (hbound : ing.amount * maxSafe ≤ getStoredAmount caps σ.raw ing.item) :
    GoodRequests caps σ (alSet acc ing.item
      ⟨((alGet acc ing.item).getD ⟨[], 0⟩).productions ++
          [⟨idx, ing.amount * maxSafe, maxSafe⟩],
        ((alGet acc ing.item).getD ⟨[], 0⟩).totalRequestedAmount + ing.amount * maxSafe⟩) := by
  obtain ⟨hnd, hprops⟩ := hacc
  have hreq : ((alGet acc ing.item).getD ⟨[], 0⟩).totalRequestedAmount =
      ((((alGet acc ing.item).getD ⟨[], 0⟩).productions).map ProdEntry.requestedAmount).sum ∧
      ∀ e ∈ ((alGet acc ing.item).getD ⟨[], 0⟩).productions,
        1 ≤ e.requestedAmount ∧
        e.requestedAmount ≤ getStoredAmount caps σ.raw ing.item ∧
        ∃ q, σ.lines.get? e.production = some q ∧
          ∃ ia ∈ q.recipe.ingredients, ia.item = ing.item := by
    cases halg : alGet acc ing.item with
    | none => simp
    | some r =>
      simp only [Option.getD_some]
      exact hprops (ing.item, r) (alGet_mem _ _ _ halg)
  constructor
  · exact alSet_keys_nodup _ _ _ hnd
  · intro kv hkv
    rcases mem_alSet_elim _ _ _ _ hkv with hold | hnew
    · exact hprops kv hold
    · subst hnew
      refine ⟨?_, ?_⟩
      · simp only [List.map_append, List.sum_append, List.map_cons, List.map_nil,
          List.sum_cons, List.sum_nil]
        rw [hreq.1]
        omega
      · intro e he
        rcases List.mem_append.mp he with hold2 | hnew2
        · exact hreq.2 e hold2
        · simp only [List.mem_singleton] at hnew2
          subst hnew2
          exact ⟨Nat.mul_pos hpos hm, hbound, p, hp, ing, hmem, rfl⟩

/-- `collectIngredients` keeps the invariant. -/
theorem collectIngredients_good {I : Type} [DecidableEq I] (caps : I → ℕ) (σ : SimState I)
    (idx maxSafe : ℕ) (p : RecipeProduction I) (hp : σ.lines.get? idx = some p)
    (hm : 1 ≤ maxSafe) :
    ∀ (ings : List (ItemAmount I)) (acc : List (I × ItemRequest)),
    (∀ ing ∈ ings, ing ∈ p.recipe.ingredients ∧ 0 < ing.amount ∧
      ing.amount * maxSafe ≤ getStoredAmount caps σ.raw ing.item) →
    GoodRequests caps σ acc →
    GoodRequests caps σ (collectIngredients idx maxSafe ings acc) := by
  intro ings
  induction ings with
  | nil => intro acc _ hacc; exact hacc
  | cons ing rest ih =>
    intro acc hing hacc
    obtain ⟨hmem, hpos, hbound⟩ := hing ing (List.mem_cons_self _ _)
    simp only [collectIngredients]
    exact ih _ (fun i hi => hing i (List.mem_cons_of_mem _ hi))
      (goodRequests_step hacc hp hm hmem hpos hbound)

/-- The collected request map of a state with positive ingredient
amounts is well formed. -/
theorem collectItemRequests_good {I : Type} [DecidableEq I] (caps : I → ℕ) (σ : SimState I)
    (hPI : PositiveIngredients σ) :
    ∀ (idxs : List ℕ) (acc : List (I × ItemRequest)),
    GoodRequests caps σ acc → GoodRequests caps σ (collectItemRequests caps σ idxs acc) := by
  intro idxs
  induction idxs with
  | nil => intro acc hacc; exact hacc
  | cons idx rest ih =>
    intro acc hacc
    simp only [collectItemRequests]
    cases hp : σ.lines.get? idx with
    | none => exact ih _ hacc
    | some p =>
      simp only
      split
      · split
        · exact ih _ hacc
        · rename_i hms
          refine ih _ (collectIngredients_good caps σ idx _ p hp
            (Nat.one_le_iff_ne_zero.mpr hms) _ acc ?_ hacc)
          intro ing hi
          exact ⟨hi, hPI p (List.get?_mem hp) ing hi, requested_le_stored caps σ.raw p hi⟩
      · exact ih _ hacc

/-- Any filter of a well-formed request map is well formed. -/
theorem goodRequests_filter {I : Type} [DecidableEq I] {caps : I → ℕ} {σ : SimState I}
    {l : List (I × ItemRequest)} (h : GoodRequests caps σ l)
    (f : I × ItemRequest → Bool) : GoodRequests caps σ (l.filter f) := by
  obtain ⟨hnd, hprops⟩ := h
  constructor
  · exact List.Nodup.sublist (List.Sublist.map Prod.fst (List.filter_sublist l)) hnd
  · intro kv hkv
    exact hprops kv (List.mem_of_mem_filter hkv)

/-! ## C4 infrastructure — satisfiable-phase demand accounting -/

/-- `entriesNeed` distributes over append. -/
theorem entriesNeed_append {I : Type} [DecidableEq I] (Y : I) (l1 l2 : List (SatEntry I)) :
    entriesNeed Y (l1 ++ l2) = entriesNeed Y l1 + entriesNeed Y l2 := by
  simp [entriesNeed, List.filter_append]

/-- `entriesNeed` on a cons. -/
theorem entriesNeed_cons {I : Type} [DecidableEq I] (Y : I) (s : SatEntry I)
    (l : List (SatEntry I)) :
    entriesNeed Y (s :: l) =
      (if s.item = Y then s.requestedAmount else 0) + entriesNeed Y l := by
  by_cases hs : s.item = Y
  · simp [entriesNeed, List.filter_cons, hs]
  · simp [entriesNeed, List.filter_cons, hs]

/-- `satNeed` on a cons. -/
theorem satNeed_cons {I : Type} [DecidableEq I] (Y : I) (kv : ℕ × List (SatEntry I))
    (l : List (ℕ × List (SatEntry I))) :
    satNeed Y (kv :: l) = entriesNeed Y kv.2 + satNeed Y l := by
  simp [satNeed]

/-- Appending one regrouped entry to its production's bucket adds its
demand to the total demand. -/
theorem satNeed_alSet_append {I : Type} [DecidableEq I] (Y : I) (s : SatEntry I) :
    ∀ (m : List (ℕ × List (SatEntry I))) (idx : ℕ),
    satNeed Y (alSet m idx (((alGet m idx).getD []) ++ [s])) =
      satNeed Y m + entriesNeed Y [s] := by
  intro m
  induction m with
  | nil =>
    intro idx
    simp [alGet, alSet, satNeed]
  | cons kv rest ih =>
    intro idx
    obtain ⟨k0, w⟩ := kv
    by_cases hk : k0 = idx
    · subst hk
      simp only [alGet, alSet, if_pos rfl, if_true, eq_self_iff_true, Option.getD_some]
      simp only [satNeed_cons, entriesNeed_append]
      omega
    · simp only [alGet, alSet, if_neg hk]
      simp only [satNeed_cons]
      rw [ih]
      omega

/-- Folding one satisfiable request's entries into the per-production
regrouping adds the request's demand for `Y` when its key is `Y`. -/
theorem satNeed_foldl_insert {I : Type} [DecidableEq I] (Y X : I) :
    ∀ (prods : List ProdEntry) (m : List (ℕ × List (SatEntry I))),
    satNeed Y (prods.foldl (fun acc2 entry =>
        alSet acc2 entry.production (((alGet acc2 entry.production).getD []) ++
          [⟨X, entry.requestedAmount, entry.requestedProducers⟩])) m) =
      satNeed Y m + (if X = Y then (prods.map ProdEntry.requestedAmount).sum else 0) := by
  intro prods
  induction prods with
  | nil => intro m; simp
  | cons e prods ih =>
    intro m
    simp only [List.foldl_cons]
    rw [ih, satNeed_alSet_append]
    have hent : entriesNeed Y [(⟨X, e.requestedAmount, e.requestedProducers⟩ : SatEntry I)] =
        if X = Y then e.requestedAmount else 0 := by
      by_cases hx : X = Y
      · simp [entriesNeed, hx]
      · simp [entriesNeed, hx]
    rw [hent]
    by_cases hx : X = Y
    · rw [if_pos hx, if_pos hx, if_pos hx]
      simp only [List.map_cons, List.sum_cons]
      omega
    · rw [if_neg hx, if_neg hx, if_neg hx]

/-- The total demand of the per-production regrouping: each request
contributes its entry sum under its own key. -/
theorem satNeed_satByProduction {I : Type} [DecidableEq I] (Y : I) :
    ∀ (l : List (I × ItemRequest)) (acc : List (ℕ × List (SatEntry I))),
    satNeed Y (satByProduction l acc) =
      satNeed Y acc + ((l.map fun kv =>
        if kv.1 = Y then (kv.2.productions.map ProdEntry.requestedAmount).sum else 0).sum) := by
  intro l
  induction l with
  | nil => intro acc; simp [satByProduction]
  | cons kv rest ih =>
    intro l
    obtain ⟨X, req⟩ := kv
    simp only [satByProduction]
    rw [ih, satNeed_foldl_insert]
    simp only [List.map_cons, List.sum_cons]
    omega

/-- A key absent from the list contributes nothing. -/
theorem contrib_zero_of_not_mem {I : Type} [DecidableEq I] (Y : I) :
    ∀ (l : List (I × ItemRequest)), Y ∉ l.map Prod.fst →
    ((l.map fun kv =>
      if kv.1 = Y then (kv.2.productions.map ProdEntry.requestedAmount).sum else 0).sum) = 0 := by
  intro l
  induction l with
  | nil => intro _; simp
  | cons kv rest ih =>
    intro h
    simp only [List.map_cons, List.mem_cons, not_or] at h
    simp only [List.map_cons, List.sum_cons]
    rw [if_neg (fun he => h.1 he.symm), ih h.2]

/-- With distinct keys, the total contribution for `Y` is bounded by any
bound on each key-`Y` request. -/
theorem contrib_le_bound {I : Type} [DecidableEq I] (Y : I) :
    ∀ (l : List (I × ItemRequest)) (bound : ℕ), (l.map Prod.fst).Nodup →
    (∀ kv ∈ l, kv.1 = Y → (kv.2.productions.map ProdEntry.requestedAmount).sum ≤ bound) →
    ((l.map fun kv =>
      if kv.1 = Y then (kv.2.productions.map ProdEntry.requestedAmount).sum else 0).sum) ≤
      bound := by
  intro l
  induction l with
  | nil => intro bound _ _; simp
  | cons kv rest ih =>
    intro bound hnd hb
    simp only [List.map_cons, List.nodup_cons] at hnd
    simp only [List.map_cons, List.sum_cons]
    by_cases hkv : kv.1 = Y
    · rw [if_pos hkv]
      have hz : ((rest.map fun kv2 =>
          if kv2.1 = Y then (kv2.2.productions.map ProdEntry.requestedAmount).sum
          else 0).sum) = 0 := by
        apply contrib_zero_of_not_mem
        rw [← hkv]
        exact hnd.1
      rw [hz]
      have := hb kv (List.mem_cons_self _ _) hkv
      omega
    · rw [if_neg hkv]
      have := ih bound hnd.2 (fun kv2 h2 => hb kv2 (List.mem_cons_of_mem _ h2))
      omega

/-- A request that passes the satisfiability filter demands at most the
stored amount of its own item. -/
theorem satRequest_total_le {I : Type} [DecidableEq I] (caps : I → ℕ) (σ : SimState I)
    (all : List (I × ItemRequest)) (hall : GoodRequests caps σ all)
    {Y : I} {req : ItemRequest} (hm : (Y, req) ∈ all)
    (hs : isSatisfiableRequest caps σ all req = true) :
    (req.productions.map ProdEntry.requestedAmount).sum ≤ getStoredAmount caps σ.raw Y := by
  obtain ⟨hnd, hprops⟩ := hall
  obtain ⟨htot, hbprops⟩ := hprops (Y, req) hm
  cases hpr : req.productions with
  | nil => simp [hpr]
  | cons e tail =>
    have he : e ∈ req.productions := by
      rw [hpr]
      exact List.mem_cons_self _ _
    obtain ⟨-, -, p, hp, ia, hia, hiaY⟩ := hbprops e he
    simp only [isSatisfiableRequest] at hs
    have hse := List.all_eq_true.mp hs e he
    simp only [hp] at hse
    have hsia := List.all_eq_true.mp hse ia hia
    simp only [hiaY, alGet_of_mem_nodup all Y req hnd hm] at hsia
    have hle := of_decide_eq_true hsia
    rw [← hpr, ← htot]
    exact hle

/-! ## C4 infrastructure — phase error tags

The debug inconsistency errors of the simple and satisfiable phases
cannot escape any other phase, and cannot escape those two phases when
the collected bounds hold. -/

/-- `satWithdrawals` under a demand frame: every withdrawal is exact,
so the only possible error is the storage range error, and on success
the frame still fits the stored amounts. -/
theorem satWithdrawals_tags {I : Type} [DecidableEq I] (caps : I → ℕ) (debug : Bool) :
    ∀ (l : List (SatEntry I)) (σ : SimState I) (need : I → ℕ)
      (r : Except (Err × SimState I) (SimState I)),
    satWithdrawals caps debug l σ = r →
    (∀ Y, entriesNeed Y l + need Y ≤ getStoredAmount caps σ.raw Y) →
    (∀ e σe, r = .error (e, σe) →
      e ≠ Err.simpleShortWithdrawal ∧ e ≠ Err.satShortWithdrawal) ∧
    (∀ σ1, r = .ok σ1 → ∀ Y, need Y ≤ getStoredAmount caps σ1.raw Y) := by
  intro l
  induction l with
  | nil =>
    intro σ need r hr hb
    simp only [satWithdrawals] at hr
    constructor
    · intro e σe h
      rw [← hr] at h
      simp at h
    · intro σ1 h
      rw [← hr] at h
      simp only [Except.ok.injEq] at h
      subst h
      intro Y
      have := hb Y
      simp only [entriesNeed, List.filter_nil, List.map_nil, List.sum_nil] at this
      omega
  | cons s rest ih =>
    intro σ need r hr hb
    have hbs := hb s.item
    rw [entriesNeed_cons, if_pos rfl] at hbs
    simp only [satWithdrawals] at hr
    split at hr
    · rename_i e0 hw
      have he0 := withdraw_error_eq hw
      constructor
      · intro e σe h
        rw [← hr] at h
        simp only [Except.error.injEq, Prod.mk.injEq] at h
        obtain ⟨h1, -⟩ := h
        subst h1
        subst he0
        exact ⟨by decide, by decide⟩
      · intro σ1 h
        rw [← hr] at h
        simp at h
    · rename_i raw1 avail hw
      obtain ⟨hne, hwv, hraw⟩ := withdraw_ok_eq hw
      have hle : s.requestedAmount ≤ getStoredAmount caps σ.raw s.item := by omega
      have havail : avail = s.requestedAmount := by
        rw [hwv]
        exact min_eq_left hle
      split at hr
      · rename_i hcond
        exact absurd havail hcond.2
      · subst havail
        subst hraw
        refine ih _ need r hr ?_
        intro Y
        by_cases hy : Y = s.item
        · rw [hy]
          simp only [getStoredAmount, Function.update_same]
          simp only [getStoredAmount] at hbs
          omega
        · have hbY := hb Y
          rw [entriesNeed_cons, if_neg (fun he => hy he.symm)] at hbY
          simp only [getStoredAmount]
          rw [Function.update_noteq hy]
          simp only [getStoredAmount] at hbY
          omega

/-- `satProductionsLoop` under the total-demand bound throws at worst
the storage range error or the missing-reference error. -/
theorem satProductionsLoop_tags {I : Type} [DecidableEq I] (caps : I → ℕ) (td : ℤ)
    (debug : Bool) :
    ∀ (l : List (ℕ × List (SatEntry I))) (σ : SimState I) (acc : List Tracker)
      (r : Except (Err × SimState I) (SimState I × List Tracker)),
    satProductionsLoop caps td debug l σ acc = r →
    (∀ Y, satNeed Y l ≤ getStoredAmount caps σ.raw Y) →
    ∀ e σe, r = .error (e, σe) →
      e ≠ Err.simpleShortWithdrawal ∧ e ≠ Err.satShortWithdrawal := by
  intro l
  induction l with
  | nil =>
    intro σ acc r hr hb e σe h
    simp only [satProductionsLoop] at hr
    rw [← hr] at h
    simp at h
  | cons kv rest ih =>
    intro σ acc r hr hb e σe h
    obtain ⟨idx, entries⟩ := kv
    have hb' : ∀ Y, entriesNeed Y entries + satNeed Y rest ≤
        getStoredAmount caps σ.raw Y := by
      intro Y
      have := hb Y
      rw [satNeed_cons] at this
      exact this
    simp only [satProductionsLoop] at hr
    split at hr
    · rename_i e1 hw
      have h1 : e1 = (e, σe) := by
        have h2 := hr.trans h
        simp only [Except.error.injEq] at h2
        exact h2
      exact (satWithdrawals_tags caps debug entries σ (fun Y => satNeed Y rest)
        _ hw hb').1 e σe (by rw [h1])
    · rename_i σ1 hw
      have hok := (satWithdrawals_tags caps debug entries σ (fun Y => satNeed Y rest)
        _ hw hb').2 σ1 rfl
      split at hr
      · rw [← hr] at h
        simp only [Except.error.injEq, Prod.mk.injEq] at h
        obtain ⟨h1, -⟩ := h
        subst h1
        exact ⟨by decide, by decide⟩
      · split at hr
        · rw [← hr] at h
          simp only [Except.error.injEq, Prod.mk.injEq] at h
          obtain ⟨h1, -⟩ := h
          subst h1
          exact ⟨by decide, by decide⟩
        · rename_i p hp
          exact ih _ _ r hr (fun Y => hok Y) e σe h

/-- `processSimpleItemRequests` with distinct keys and per-entry bounds:
the debug short-withdrawal check never fires, and on success the raw
amounts of all other items are untouched. -/
theorem processSimple_tags {I : Type} [DecidableEq I] (caps : I → ℕ) (td : ℤ)
    (debug : Bool) :
    ∀ (l : List (I × ItemRequest)) (σ : SimState I) (acc : List Tracker)
      (r : Except (Err × SimState I) (SimState I × List Tracker)),
    processSimpleItemRequests caps td debug l σ acc = r →
    (l.map Prod.fst).Nodup →
    (∀ kv ∈ l, ∀ e ∈ kv.2.productions,
      e.requestedAmount ≤ getStoredAmount caps σ.raw kv.1) →
    (∀ e σe, r = .error (e, σe) →
      e ≠ Err.simpleShortWithdrawal ∧ e ≠ Err.satShortWithdrawal) ∧
    (∀ σ1 trk, r = .ok (σ1, trk) → ∀ j, j ∉ l.map Prod.fst → σ1.raw j = σ.raw j) := by
  intro l
  induction l with
  | nil =>
    intro σ acc r hr hnd hbnd
    simp only [processSimpleItemRequests] at hr
    constructor
    · intro e σe h
      rw [← hr] at h
      simp at h
    · intro σ1 trk h
      rw [← hr] at h
      simp only [Except.ok.injEq, Prod.mk.injEq] at h
      obtain ⟨h1, -⟩ := h
      subst h1
      intro j _
      rfl
  | cons kv rest ih =>
    intro σ acc r hr hnd hbnd
    obtain ⟨item, req⟩ := kv
    obtain ⟨prods, tot⟩ := req
    simp only [List.map_cons, List.nodup_cons] at hnd
    cases prods with
    | nil =>
      simp only [processSimpleItemRequests] at hr
      constructor
      · intro e σe h
        split at hr
        · rw [← hr] at h
          simp only [Except.error.injEq, Prod.mk.injEq] at h
          obtain ⟨h1, -⟩ := h
          subst h1
          exact ⟨by decide, by decide⟩
        · rw [← hr] at h
          simp only [Except.error.injEq, Prod.mk.injEq] at h
          obtain ⟨h1, -⟩ := h
          subst h1
          exact ⟨by decide, by decide⟩
      · intro σ1 trk h
        split at hr <;> rw [← hr] at h <;> simp at h
    | cons entry tail =>
      simp only [processSimpleItemRequests] at hr
      split at hr
      · constructor
        · intro e σe h
          rw [← hr] at h
          simp only [Except.error.injEq, Prod.mk.injEq] at h
          obtain ⟨h1, -⟩ := h
          subst h1
          exact ⟨by decide, by decide⟩
        · intro σ1 trk h
          rw [← hr] at h
          simp at h
      · split at hr
        · constructor
          · intro e σe h
            rw [← hr] at h
            simp only [Except.error.injEq, Prod.mk.injEq] at h
            obtain ⟨h1, -⟩ := h
            subst h1
            exact ⟨by decide, by decide⟩
          · intro σ1 trk h
            rw [← hr] at h
            simp at h
        · rename_i p hp
          split at hr
          · constructor
            · intro e σe h
              rw [← hr] at h
              simp only [Except.error.injEq, Prod.mk.injEq] at h
              obtain ⟨h1, -⟩ := h
              subst h1
              exact ⟨by decide, by decide⟩
            · intro σ1 trk h
              rw [← hr] at h
              simp at h
          · split at hr
            · constructor
              · intro e σe h
                rw [← hr] at h
                simp only [Except.error.injEq, Prod.mk.injEq] at h
                obtain ⟨h1, -⟩ := h
                subst h1
                exact ⟨by decide, by decide⟩
              · intro σ1 trk h
                rw [← hr] at h
                simp at h
            · split at hr
              · rename_i e0 hw
                have he0 := withdraw_error_eq hw
                constructor
                · intro e σe h
                  rw [← hr] at h
                  simp only [Except.error.injEq, Prod.mk.injEq] at h
                  obtain ⟨h1, -⟩ := h
                  subst h1
                  subst he0
                  exact ⟨by decide, by decide⟩
                · intro σ1 trk h
                  rw [← hr] at h
                  simp at h
              · rename_i raw1 avail hw
                obtain ⟨hne, hwv, hraw⟩ := withdraw_ok_eq hw
                have hble : entry.requestedAmount ≤ getStoredAmount caps σ.raw item :=
                  hbnd (item, ⟨entry :: tail, tot⟩) (List.mem_cons_self _ _) entry
                    (List.mem_cons_self _ _)
                have havail : avail = entry.requestedAmount := by
                  rw [hwv]
                  exact min_eq_left hble
                split at hr
                · rename_i hcond
                  exact absurd havail hcond.2
                · subst havail
                  subst hraw
                  have hbnd2 : ∀ kv ∈ rest, ∀ e ∈ kv.2.productions,
                      e.requestedAmount ≤ getStoredAmount caps
                        (Function.update σ.raw item
                          (getStoredAmount caps σ.raw item - entry.requestedAmount)) kv.1 := by
                    intro kv2 hkv2 e2 he2
                    have hk2 : kv2.1 ≠ item := by
                      intro heq
                      exact hnd.1 (heq ▸ List.mem_map_of_mem Prod.fst hkv2)
                    have hgoal := hbnd kv2 (List.mem_cons_of_mem _ hkv2) e2 he2
                    simp only [getStoredAmount] at hgoal ⊢
                    rw [Function.update_noteq hk2]
                    exact hgoal
                  obtain ⟨htags, hok⟩ := ih _ _ r hr hnd.2 hbnd2
                  constructor
                  · exact htags
                  · intro σ1 trk h j hj
                    simp only [List.map_cons, List.mem_cons, not_or] at hj
                    rw [hok σ1 trk h j hj.2]
                    exact Function.update_noteq hj.1 _ _

/-- `unsatWithdrawals` throws at worst the storage range error or its
own short-withdrawal tag. -/
theorem unsatWithdrawals_tags {I : Type} [DecidableEq I] (caps : I → ℕ) (debug : Bool)
    (producers : ℕ) :
    ∀ (l : List (ItemAmount I)) (σ : SimState I)
      (r : Except (Err × SimState I) (SimState I)),
    unsatWithdrawals caps debug producers l σ = r →
    ∀ e σe, r = .error (e, σe) →
      e ≠ Err.simpleShortWithdrawal ∧ e ≠ Err.satShortWithdrawal := by
  intro l
  induction l with
  | nil =>
    intro σ r hr e σe h
    simp only [unsatWithdrawals] at hr
    rw [← hr] at h
    simp at h
  | cons ia rest ih =>
    intro σ r hr e σe h
    simp only [unsatWithdrawals] at hr
    split at hr
    · rename_i e0 hw
      have he0 := withdraw_error_eq hw
      rw [← hr] at h
      simp only [Except.error.injEq, Prod.mk.injEq] at h
      obtain ⟨h1, -⟩ := h
      subst h1
      subst he0
      exact ⟨by decide, by decide⟩
    · rename_i raw1 avail hw
      split at hr
      · rw [← hr] at h
        simp only [Except.error.injEq, Prod.mk.injEq] at h
        obtain ⟨h1, -⟩ := h
        subst h1
        exact ⟨by decide, by decide⟩
      · exact ih _ r hr e σe h

/-- `unsatProductionsLoop` throws at worst the storage range error, the
unsatisfiable short tag, or the missing-reference error. -/
theorem unsatProductionsLoop_tags {I : Type} [DecidableEq I] (caps : I → ℕ) (td : ℤ)
    (debug : Bool) :
    ∀ (l : List (ℕ × ℕ)) (σ : SimState I) (acc : List Tracker)
      (r : Except (Err × SimState I) (SimState I × List Tracker)),
    unsatProductionsLoop caps td debug l σ acc = r →
    ∀ e σe, r = .error (e, σe) →
      e ≠ Err.simpleShortWithdrawal ∧ e ≠ Err.satShortWithdrawal := by
  intro l
  induction l with
  | nil =>
    intro σ acc r hr e σe h
    simp only [unsatProductionsLoop] at hr
    rw [← hr] at h
    simp at h
  | cons kv rest ih =>
    intro σ acc r hr e σe h
    obtain ⟨idx, producers⟩ := kv
    simp only [unsatProductionsLoop] at hr
    split at hr
    · rw [← hr] at h
      simp only [Except.error.injEq, Prod.mk.injEq] at h
      obtain ⟨h1, -⟩ := h
      subst h1
      exact ⟨by decide, by decide⟩
    · rename_i p hp
      split at hr
      · rename_i e1 hw
        have h1 : e1 = (e, σe) := by
          have h2 := hr.trans h
          simp only [Except.error.injEq] at h2
          exact h2
        exact unsatWithdrawals_tags caps debug producers _ σ _ hw e σe (by rw [h1])
      · rename_i σ1 hw
        exact ih _ _ r hr e σe h

/-- `processUnsatGroups` throws at worst the storage range error, the
unsatisfiable short tag, or the missing-reference error. -/
theorem processUnsatGroups_tags {I : Type} [DecidableEq I] (caps : I → ℕ) (td : ℤ)
    (debug : Bool) :
    ∀ (groups : List (List (I × ItemRequest))) (σ : SimState I) (acc : List Tracker)
      (r : Except (Err × SimState I) (SimState I × List Tracker)),
    processUnsatGroups caps td debug groups σ acc = r →
    ∀ e σe, r = .error (e, σe) →
      e ≠ Err.simpleShortWithdrawal ∧ e ≠ Err.satShortWithdrawal := by
  intro groups
  induction groups with
  | nil =>
    intro σ acc r hr e σe h
    simp only [processUnsatGroups] at hr
    rw [← hr] at h
    simp at h
  | cons group rest ih =>
    intro σ acc r hr e σe h
    simp only [processUnsatGroups] at hr
    split at hr
    · rename_i e1 hg
      simp only [processUnsatisfiableMixedItemRequestsGroup] at hg
      exact unsatProductionsLoop_tags caps td debug _ σ acc _ hg e σe (hr.trans h)
    · rename_i σ1 acc1 hg
      exact ih _ _ r hr e σe h

/-- `depositResults` throws only the storage range error. -/
theorem depositResults_tags {I : Type} [DecidableEq I] (caps : I → ℕ) (producers : ℕ) :
    ∀ (l : List (ItemAmount I)) (σ : SimState I)
      (r : Except (Err × SimState I) (SimState I)),
    depositResults caps producers l σ = r →
    ∀ e σe, r = .error (e, σe) →
      e ≠ Err.simpleShortWithdrawal ∧ e ≠ Err.satShortWithdrawal := by
  intro l
  induction l with
  | nil =>
    intro σ r hr e σe h
    simp only [depositResults] at hr
    rw [← hr] at h
    simp at h
  | cons ia rest ih =>
    intro σ r hr e σe h
    simp only [depositResults] at hr
    split at hr
    · rename_i e0 hd
      have he0 := deposit_error_eq hd
      rw [← hr] at h
      simp only [Except.error.injEq, Prod.mk.injEq] at h
      obtain ⟨h1, -⟩ := h
      subst h1
      subst he0
      exact ⟨by decide, by decide⟩
    · rename_i raw1 dep hd
      exact ih _ r hr e σe h

/-- `updateProductions` throws at worst the storage range error or the
missing-reference error. -/
theorem updateProductions_tags {I : Type} [DecidableEq I] (caps : I → ℕ) :
    ∀ (trackers : List Tracker) (σ : SimState I) (acc : List Tracker)
      (r : Except (Err × SimState I) (SimState I × List Tracker)),
    updateProductions caps trackers σ acc = r →
    ∀ e σe, r = .error (e, σe) →
      e ≠ Err.simpleShortWithdrawal ∧ e ≠ Err.satShortWithdrawal := by
  intro trackers
  induction trackers with
  | nil =>
    intro σ acc r hr e σe h
    simp only [updateProductions] at hr
    rw [← hr] at h
    simp at h
  | cons t rest ih =>
    intro σ acc r hr e σe h
    simp only [updateProductions] at hr
    split at hr
    · rw [← hr] at h
      simp only [Except.error.injEq, Prod.mk.injEq] at h
      obtain ⟨h1, -⟩ := h
      subst h1
      exact ⟨by decide, by decide⟩
    · rename_i p hp
      split at hr
      · split at hr
        · split at hr
          · rename_i e1 hdep
            have h1 : e1 = (e, σe) := by
              have h2 := hr.trans h
              simp only [Except.error.injEq] at h2
              exact h2
            exact depositResults_tags caps _ _ _ _ hdep e σe (by rw [h1])
          · rename_i σ2 hdep
            exact ih _ _ r hr e σe h
        · exact ih _ _ r hr e σe h
      · exact ih _ _ r hr e σe h

/-- With positive ingredient amounts, the straight-line phase prefix of
`update` never raises the two debug short-withdrawal tags, and a normal
return keeps the positive-ingredient invariant. -/
theorem runPhases_tags {I : Type} [DecidableEq I] (caps : I → ℕ) (σ : SimState I)
    (idxs : List ℕ) (td : ℤ) (debug : Bool) (hPI : PositiveIngredients σ)
    (r : Except (Err × SimState I) (SimState I × List Tracker))
    (hr : runPhases caps σ idxs td debug = r) :
    (∀ e σe, r = .error (e, σe) →
      e ≠ Err.simpleShortWithdrawal ∧ e ≠ Err.satShortWithdrawal) ∧
    (∀ σ5 trk, r = .ok (σ5, trk) → PositiveIngredients σ5) := by
  have hall : GoodRequests caps σ (collectItemRequests caps σ idxs []) :=
    collectItemRequests_good caps σ hPI idxs [] (goodRequests_nil caps σ)
  have hraw1 : (activationPass caps td idxs σ []).1.raw = σ.raw :=
    activationPass_raw caps td idxs σ []
  have hPI1 : PositiveIngredients (activationPass caps td idxs σ []).1 :=
    activationPass_linesProp caps td
      (fun p => ∀ ia ∈ p.recipe.ingredients, 0 < ia.amount)
      (fun p a hq => hq) idxs σ [] hPI
  have hGsimple : GoodRequests caps σ
      (getSimpleItemRequests σ (collectItemRequests caps σ idxs [])) := by
    simp only [getSimpleItemRequests]
    exact goodRequests_filter hall _
  have hnds : ((getSimpleItemRequests σ (collectItemRequests caps σ idxs [])).map
      Prod.fst).Nodup := hGsimple.1
  have hbnds : ∀ kv ∈ getSimpleItemRequests σ (collectItemRequests caps σ idxs []),
      ∀ e ∈ kv.2.productions, e.requestedAmount ≤
        getStoredAmount caps (activationPass caps td idxs σ []).1.raw kv.1 := by
    intro kv hkv e he
    rw [hraw1]
    exact ((hGsimple.2 kv hkv).2 e he).2.1
  simp only [runPhases] at hr
  split at hr
  · rename_i e1 hsimple
    have htags := (processSimple_tags caps td debug _ _ _ _ hsimple hnds hbnds).1
    constructor
    · intro e σe h
      have h1 : e1 = (e, σe) := by
        have h2 := hr.trans h
        simp only [Except.error.injEq] at h2
        exact h2
      exact htags e σe (by rw [h1])
    · intro σ5 trk h
      rw [← hr] at h
      simp at h
  · rename_i σ2 trackers1 hsimple
    obtain ⟨hst, hoff⟩ := processSimple_tags caps td debug _ _ _ _ hsimple hnds hbnds
    have hraw2 := hoff σ2 trackers1 rfl
    have hPI2 : PositiveIngredients σ2 :=
      processSimple_linesProp caps td debug
        (fun p => ∀ ia ∈ p.recipe.ingredients, 0 < ia.amount)
        (fun p a hq => hq) _ _ _ _ _ hPI1 hsimple
    have hneed : ∀ Y, satNeed Y (satByProduction
        (getSatisfiableMixedItemRequests caps σ (collectItemRequests caps σ idxs [])
          (getSimpleItemRequests σ (collectItemRequests caps σ idxs []))) []) ≤
        getStoredAmount caps σ2.raw Y := by
      intro Y
      rw [satNeed_satByProduction]
      have hz : satNeed Y ([] : List (ℕ × List (SatEntry I))) = 0 := rfl
      rw [hz, Nat.zero_add]
      apply contrib_le_bound
      · exact (goodRequests_filter hall _).1
      · intro kv hkv hk1
        obtain ⟨X, req⟩ := kv
        have hk2 : X = Y := hk1
        subst hk2
        simp only [getSatisfiableMixedItemRequests] at hkv
        have hmf := List.mem_filter.mp hkv
        have hmem_all := hmf.1
        have hcond := hmf.2
        rw [Bool.and_eq_true] at hcond
        have hsat2 : isSatisfiableRequest caps σ (collectItemRequests caps σ idxs [])
            req = true := hcond.2
        have hgets : alGet (getSimpleItemRequests σ
            (collectItemRequests caps σ idxs [])) X = none := by
          have h1 := hcond.1
          rw [Bool.not_eq_true'] at h1
          simp only [alHas] at h1
          cases halg : alGet (getSimpleItemRequests σ
              (collectItemRequests caps σ idxs [])) X with
          | none => rfl
          | some v =>
            rw [halg] at h1
            simp at h1
        have hnotkey : X ∉ (getSimpleItemRequests σ
            (collectItemRequests caps σ idxs [])).map Prod.fst :=
          (alGet_none_iff _ _).mp hgets
        have htot := satRequest_total_le caps σ _ hall hmem_all hsat2
        have hfix : σ2.raw X = σ.raw X := by
          rw [hraw2 X hnotkey, hraw1]
        simp only [getStoredAmount, hfix]
        simp only [getStoredAmount] at htot
        exact htot
    split at hr
    · rename_i e2 hsat
      simp only [processSatisfiableMixedItemRequests] at hsat
      have htags2 := satProductionsLoop_tags caps td debug _ _ _ _ hsat hneed
      constructor
      · intro e σe h
        have h1 : e2 = (e, σe) := by
          have h2 := hr.trans h
          simp only [Except.error.injEq] at h2
          exact h2
        exact htags2 e σe (by rw [h1])
      · intro σ5 trk h
        rw [← hr] at h
        simp at h
    · rename_i σ3 trackers2 hsat
      have hPI3 : PositiveIngredients σ3 := by
        have hsat2 := hsat
        simp only [processSatisfiableMixedItemRequests] at hsat2
        exact satProductionsLoop_linesProp caps td debug
          (fun p => ∀ ia ∈ p.recipe.ingredients, 0 < ia.amount)
          (fun p a hq => hq) _ _ _ _ _ hPI2 hsat2
      split at hr
      · rename_i e3 hgroups
        have htags3 := processUnsatGroups_tags caps td debug _ _ _ _ hgroups
        constructor
        · intro e σe h
          have h1 : e3 = (e, σe) := by
            have h2 := hr.trans h
            simp only [Except.error.injEq] at h2
            exact h2
          exact htags3 e σe (by rw [h1])
        · intro σ5 trk h
          rw [← hr] at h
          simp at h
      · rename_i σ4 trackers3 hgroups
        have hPI4 : PositiveIngredients σ4 :=
          processUnsatGroups_linesProp caps td debug
            (fun p => ∀ ia ∈ p.recipe.ingredients, 0 < ia.amount)
            (fun p a hq => hq) _ _ _ _ _ hPI3 hgroups
        split at hr
        · rename_i e4 hupd
          have htags4 := updateProductions_tags caps _ _ _ _ hupd
          constructor
          · intro e σe h
            have h1 : e4 = (e, σe) := by
              have h2 := hr.trans h
              simp only [Except.error.injEq] at h2
              exact h2
            exact htags4 e σe (by rw [h1])
          · intro σ5 trk h
            rw [← hr] at h
            simp at h
        · rename_i σ5a trackers4 hupd
          have hPI5 : PositiveIngredients σ5a :=
            updateProductions_linesProp caps
              (fun p => ∀ ia ∈ p.recipe.ingredients, 0 < ia.amount)
              (fun p a g hq => hq) _ _ _ _ _ hPI4 hupd
          constructor
          · intro e σe h
            rw [← hr] at h
            simp at h
          · intro σ5 trk h
            rw [← hr] at h
            simp only [Except.ok.injEq, Prod.mk.injEq] at h
            obtain ⟨h1, -⟩ := h
            rw [← h1]
            exact hPI5

/-- Fuel induction over `updateGo`: from a positive-ingredient state,
neither `update` nor its loop body can throw the simple or satisfiable
short-withdrawal tags, and every normal return keeps the invariant. -/
theorem updateGo_tags {I : Type} [DecidableEq I] (caps : I → ℕ) :
    ∀ (fuel : ℕ),
    (∀ (σ : SimState I) (idxs : List ℕ) (td : ℤ) (debug : Bool),
      PositiveIngredients σ →
      (∀ e σe, (updateGo caps fuel).1 σ idxs td debug = .error (e, σe) →
        e ≠ Err.simpleShortWithdrawal ∧ e ≠ Err.satShortWithdrawal) ∧
      (∀ σ7, (updateGo caps fuel).1 σ idxs td debug = .ok σ7 → PositiveIngredients σ7)) ∧
    (∀ (σ : SimState I) (toUpdate : List Tracker) (debug : Bool),
      PositiveIngredients σ →
      (∀ e σe, (updateGo caps fuel).2 σ toUpdate debug = .error (e, σe) →
        e ≠ Err.simpleShortWithdrawal ∧ e ≠ Err.satShortWithdrawal) ∧
      (∀ σ1 trk, (updateGo caps fuel).2 σ toUpdate debug = .ok (σ1, trk) →
        PositiveIngredients σ1)) := by
  intro fuel
  induction fuel with
  | zero =>
    constructor
    · intro σ idxs td debug hPI
      constructor
      · intro e σe h
        simp only [updateGo] at h
        simp only [Except.error.injEq, Prod.mk.injEq] at h
        obtain ⟨h1, -⟩ := h
        rw [← h1]
        exact ⟨by decide, by decide⟩
      · intro σ7 h
        simp only [updateGo] at h
        simp at h
    · intro σ toUpdate debug hPI
      constructor
      · intro e σe h
        simp only [updateGo] at h
        simp only [Except.error.injEq, Prod.mk.injEq] at h
        obtain ⟨h1, -⟩ := h
        rw [← h1]
        exact ⟨by decide, by decide⟩
      · intro σ1 trk h
        simp only [updateGo] at h
        simp at h
  | succ fuel ih =>
    obtain ⟨ih1, ih2⟩ := ih
    constructor
    · intro σ idxs td debug hPI
      cases hres : runPhases caps σ idxs td debug with
      | error ep =>
        obtain ⟨e0, σ0⟩ := ep
        have htags := (runPhases_tags caps σ idxs td debug hPI _ hres).1
        constructor
        · intro e σe h
          simp only [updateGo, hres] at h
          simp only [Except.error.injEq, Prod.mk.injEq] at h
          obtain ⟨h1, -⟩ := h
          rw [← h1]
          exact htags e0 σ0 rfl
        · intro σ7 h
          simp only [updateGo, hres] at h
          simp at h
      | ok v =>
        obtain ⟨σ5, toUpdate⟩ := v
        have hPI5 := (runPhases_tags caps σ idxs td debug hPI _ hres).2 σ5 toUpdate rfl
        constructor
        · intro e σe h
          simp only [updateGo, hres] at h
          simp only [afterLoop] at h
          split at h
          · rename_i ep2 hif
            obtain ⟨e2, σ2e⟩ := ep2
            simp only [Except.error.injEq, Prod.mk.injEq] at h
            obtain ⟨h1, -⟩ := h
            rw [← h1]
            split at hif
            · exact (ih2 σ5 toUpdate debug hPI5).1 e2 σ2e hif
            · simp at hif
          · rename_i σ6 trk2 hif
            have hPI6 : PositiveIngredients σ6 := by
              split at hif
              · exact (ih2 σ5 toUpdate debug hPI5).2 σ6 trk2 hif
              · simp only [Except.ok.injEq, Prod.mk.injEq] at hif
                obtain ⟨h1, -⟩ := hif
                rw [← h1]
                exact hPI5
            split at h
            · rename_i e4 hupd
              simp only [Except.error.injEq] at h
              exact updateProductions_tags caps _ _ _ _ hupd e σe (by rw [h])
            · simp at h
        · intro σ7 h
          simp only [updateGo, hres] at h
          simp only [afterLoop] at h
          split at h
          · simp at h
          · rename_i σ6 trk2 hif
            have hPI6 : PositiveIngredients σ6 := by
              split at hif
              · exact (ih2 σ5 toUpdate debug hPI5).2 σ6 trk2 hif
              · simp only [Except.ok.injEq, Prod.mk.injEq] at hif
                obtain ⟨h1, -⟩ := hif
                rw [← h1]
                exact hPI5
            split at h
            · simp at h
            · rename_i σ7a trk3 hupd
              simp only [Except.ok.injEq] at h
              rw [← h]
              exact updateProductions_linesProp caps
                (fun p => ∀ ia ∈ p.recipe.ingredients, 0 < ia.amount)
                (fun p a g hq => hq) _ _ _ _ _ hPI6 hupd
    · intro σ toUpdate debug hPI
      cases hres : (updateGo caps fuel).1 σ (toUpdate.map Tracker.prodIdx)
          (minInt ((toUpdate.filter fun t => t.rem ≠ 0).map Tracker.rem)) debug with
      | error ep =>
        obtain ⟨e0, σ0⟩ := ep
        have htags := (ih1 σ (toUpdate.map Tracker.prodIdx)
          (minInt ((toUpdate.filter fun t => t.rem ≠ 0).map Tracker.rem)) debug hPI).1
        constructor
        · intro e σe h
          simp only [updateGo, hres] at h
          simp only [Except.error.injEq, Prod.mk.injEq] at h
          obtain ⟨h1, -⟩ := h
          rw [← h1]
          exact htags e0 σ0 hres
        · intro σ1 trk h
          simp only [updateGo, hres] at h
          simp at h
      | ok σ1 =>
        have hPIσ1 := (ih1 σ (toUpdate.map Tracker.prodIdx)
          (minInt ((toUpdate.filter fun t => t.rem ≠ 0).map Tracker.rem)) debug hPI).2 σ1 hres
        constructor
        · intro e σe h
          simp only [updateGo, hres] at h
          split at h
          · exact (ih2 σ1 _ debug hPIσ1).1 e σe h
          · simp at h
        · intro σ1a trk h
          simp only [updateGo, hres] at h
          split at h
          · exact (ih2 σ1 _ debug hPIσ1).2 σ1a trk h
          · simp only [Except.ok.injEq, Prod.mk.injEq] at h
            obtain ⟨h1, -⟩ := h
            rw [← h1]
            exact hPIσ1

/-- C4 (confirmed). On any call whose lines satisfy the data-model
invariant that every recipe ingredient amount is positive, `update` —
at any fuel bound, over any production references, any time delta and
either debug flag — can never throw the debug inconsistency errors of
the simple-request phase or of the satisfiable-mixed phase: every
withdrawal those two phases issue returns exactly the requested
amount. -/
theorem claim4_theorem {I : Type} [DecidableEq I] (caps : I → ℕ) (fuel : ℕ)
    (σ : SimState I) (idxs : List ℕ) (td : ℤ) (debug : Bool)
    (h : PositiveIngredients σ) :
    resErr (updateFuel caps fuel σ idxs td debug) ≠ some Err.simpleShortWithdrawal ∧
    resErr (updateFuel caps fuel σ idxs td debug) ≠ some Err.satShortWithdrawal := by
  have htags := ((updateGo_tags caps fuel).1 σ idxs td debug h).1
  cases hres : updateFuel caps fuel σ idxs td debug with
  | error ep =>
    obtain ⟨e0, σ0⟩ := ep
    have h2 := htags e0 σ0 hres
    simp only [resErr]
    constructor
    · intro hc
      injection hc with hc2
      exact h2.1 hc2
    · intro hc
      injection hc with hc2
      exact h2.2 hc2
  | ok σ7 =>
    simp only [resErr]
    exact ⟨by simp, by simp⟩

/-- C4 witness: the theorem applied in debug mode to the concrete
two-simple-ingredient line of the C5 scenario, whose state satisfies
the positive-ingredient hypothesis. -/
theorem claim4_theorem_witness :
    PositiveIngredients twoSimpleState ∧
    (resErr (updateFuel caps10 4 twoSimpleState [0] 1 true) ≠
        some Err.simpleShortWithdrawal ∧
      resErr (updateFuel caps10 4 twoSimpleState [0] 1 true) ≠
        some Err.satShortWithdrawal) :=
  ⟨by unfold PositiveIngredients; decide,
    claim4_theorem caps10 4 twoSimpleState [0] 1 true
      (by unfold PositiveIngredients; decide)⟩

/-! ## C1 — unsatisfiable-group rationing on spec scenario 4 -/

/-- C1 (counterexample). The claim says `update(lines, store, 1)` on
the scenario — WoodenNail(128), Table(128), store plank 6 / nail 12 /
bark 64, capacity 1024 — returns normally. It does not: the rationing
phase also issues withdrawals for the Table line, whose
`producersToActivate` floored to `⌊1·(6/12)⌋ = 0`, and the storage
throws its range error on the zero-amount withdrawal. -/
theorem claim1_counterexample :
    resOk (updateFuel caps1024 100 scenario4State [0, 1] 1 false) = none := rfl

/-- C1 (amended). On the scenario-4 call, rationing attempts an
ingredient withdrawal for every line of the unsatisfiable group,
including the Table line floored to 0 producers; the zero-amount
withdrawal makes the storage throw a range error. At the moment of the
throw WoodenNail has `activeProducers = 3`, Table has
`activeProducers = 0`, and the store holds `WOOD_PLANK = 3`,
`WOODEN_NAIL = 12`, `TREE_BARK = 64` — the claim's numbers survive as
the at-throw state rather than a normal-return state. -/
theorem claim1_amended :
    resErr (updateFuel caps1024 100 scenario4State [0, 1] 1 false) = some Err.rangeError ∧
    (errState (updateFuel caps1024 100 scenario4State [0, 1] 1 false)).map
      (fun σ => (lineStates σ, σ.raw .woodPlank, σ.raw .woodenNail, σ.raw .treeBark)) =
      some ([(3, 0), (0, 0)], 3, 12, 64) :=
  ⟨rfl, rfl⟩

/-! ## C2 — the return value of `update` -/

/-- C2. The TypeScript `update` is declared `void` and has no `return`
statement: a valid call returns `undefined`, not the unconsumed time
remainder the spec promises. In the embedding a normal return
accordingly carries only the mutated state and no numeric value; this
theorem evaluates the code at the spec's scenario 3 (a valid call with
`timeDelta = 4`) and shows it completes without throwing — the model of
returning `undefined`. -/
theorem claim2_code_bug_eval :
    resErr (updateFuel caps1024 100 scenario3State [0] 4 false) = none := rfl

/-! ## C5 — post-update invariants -/

/-- C5 (code bug). A single idle line whose recipe has two ingredients
that are both "simple" items (1 itemB + 1 itemC → 1 itemD, duration 1)
is pushed into the tracker list twice by `processSimpleItemRequests`
(once per simple item). After the first tracker completes, deposits and
resets the line, the second tracker advances the shared progress again
— with `activeProducers = 0`. The call returns normally with
`activeProducers = 0` and `productionProgress = 1 = productionDuration`,
violating the invariant `activeProducers = 0 ⇒ productionProgress = 0`. -/
theorem claim5_code_bug_eval :
    (resOk (updateFuel caps10 100 twoSimpleState [0] 1 false)).map lineStates =
      some [(0, 1)] := rfl

/-! ## C6 — spec scenario 3 -/

/-- C6. On ProcessTrunk(128) over `TREE_TRUNK = 32` (capacity 1024),
the collector requests 32 producers (ingredient-limited: the second
conjunct exhibits the single TREE_TRUNK request entry with
`requestedProducers = 32`), and `update(lines, store, 4)` returns
normally with the line reset (`activeProducers = 0`,
`productionProgress = 0`) and the store at `TREE_TRUNK = 0`,
`WOOD_PLANK = 256`, `TREE_BARK = 512`. -/
theorem claim6_theorem :
    alGet (collectItemRequests caps1024 scenario3State [0] []) Item.treeTrunk =
      some ⟨[⟨0, 32, 32⟩], 32⟩ ∧
    (resOk (updateFuel caps1024 100 scenario3State [0] 4 false)).map
      (fun σ => (lineStates σ, σ.raw .treeTrunk, σ.raw .woodPlank, σ.raw .treeBark)) =
      some ([(0, 0)], 0, 256, 512) :=
  ⟨rfl, rfl⟩

/-! ## C7 — timeDelta validation -/

/-- C7 (counterexample). The claim says debug-mode `update` fails with
an out-of-range error for every `timeDelta ≤ 0`. The code contains no
`timeDelta` validation at all: the debug call with `timeDelta = 0` on
an idle WoodenNail(128) line over 6 stored planks returns normally. -/
theorem claim7_counterexample :
    resErr (updateFuel caps1024 100 nailOnlyState [0] 0 true) = none := rfl

/-- C7 (amended). `update` performs no `timeDelta` validation in any
mode; a debug call with `timeDelta = 0` proceeds through activation and
withdrawal: the WoodenNail line ends with `activeProducers = 6`,
`productionProgress = 0`, and the 6 planks are withdrawn. -/
theorem claim7_amended :
    (resOk (updateFuel caps1024 100 nailOnlyState [0] 0 true)).map
      (fun σ => (lineStates σ, σ.raw .woodPlank)) = some ([(6, 0)], 0) := rfl

/-! ## C10 — behaviour at timeDelta = 0 (counterexample part) -/

/-- C10 (counterexample). The claim says a `timeDelta = 0` call
deposits no results and leaves every progress at 0. A line that starts
output-stalled (`activeProducers = 1`,
`productionProgress = 2 = productionDuration` — a state the data-model
invariants allow) deposits its results during the `timeDelta = 0` call:
the store gains one itemC and the line resets. -/
theorem claim10_counterexample :
    (resOk (updateFuel caps1024 100 stalledState [0] 0 false)).map
      (fun σ => (lineStates σ, σ.raw .itemC)) = some ([(0, 0)], 1) := rfl

/-- C10 (amended). When every line additionally starts at
`productionProgress = 0` (no output-stalled lines; durations positive),
a `timeDelta = 0` call that returns normally leaves every line's
progress at 0 and never deposits (the raw store can only shrink,
i.e. only ingredient withdrawals touch it) — while the activation
phases still run: the second conjunct shows the WoodenNail line ending
the `timeDelta = 0` call with 6 active producers and its 6 planks
withdrawn. -/
theorem claim10_amended :
    (∀ {I : Type} [inst : DecidableEq I] (caps : I → ℕ) (fuel : ℕ) (σ : SimState I)
      (idxs : List ℕ) (debug : Bool) (σ' : SimState I),
      ProgressZero σ → updateFuel caps fuel σ idxs 0 debug = .ok σ' →
      ProgressZero σ' ∧ ∀ j, σ'.raw j ≤ σ.raw j) ∧
    (resOk (updateFuel caps1024 100 nailOnlyState [0] 0 false)).map
      (fun σ => (lineStates σ, σ.raw .woodPlank)) = some ([(6, 0)], 0) := by
  constructor
  · intro I _ caps fuel σ idxs debug σ' hpz h
    match fuel with
    | 0 => exact absurd h (by simp [updateFuel, updateGo])
    | fuel + 1 =>
      have hx : updateFuel caps (fuel + 1) σ idxs 0 debug =
          match runPhases caps σ idxs 0 debug with
          | .error e => .error e
          | .ok (σ5, toUpdate) =>
            afterLoop caps
              (if loopCond σ5 toUpdate then (updateGo caps fuel).2 σ5 toUpdate debug
               else .ok (σ5, toUpdate)) := rfl
      rw [hx] at h
      cases hph : runPhases caps σ idxs 0 debug with
      | error e =>
        rw [hph] at h
        simp at h
      | ok v =>
        obtain ⟨σ5, toUpdate⟩ := v
        rw [hph] at h
        obtain ⟨hpz5, hraw5, hnil⟩ := runPhases_zero caps σ idxs debug σ5 toUpdate hpz hph
        subst hnil
        have hcond : loopCond σ5 [] = false := rfl
        have h2 : afterLoop caps
            (if loopCond σ5 [] then (updateGo caps fuel).2 σ5 [] debug
             else Except.ok (σ5, [])) = Except.ok σ' := h
        rw [hcond] at h2
        simp only [Bool.false_eq_true, if_false] at h2
        have hafter : afterLoop caps (Except.ok (σ5, ([] : List Tracker))) = .ok σ5 := rfl
        rw [hafter] at h2
        injection h2 with h2
        subst h2
        exact ⟨hpz5, hraw5⟩
  · rfl

/-- C10 (witness). The amended statement applied to the idle WoodenNail
line over 6 stored planks at `timeDelta = 0`. -/
theorem claim10_amended_witness :
    ProgressZero nailOnlyState ∧
    (ProgressZero nailOnlyResult ∧ ∀ j, nailOnlyResult.raw j ≤ nailOnlyState.raw j) := by
  have hpz : ProgressZero nailOnlyState := by
    unfold ProgressZero
    decide
  exact ⟨hpz,
    claim10_amended.1 caps1024 100 nailOnlyState [0] false nailOnlyResult hpz rfl⟩

/-! ## C3 — raw-amount bookkeeping of the store -/

/-- C3 (counterexample). With capacity 5 and raw stock 10 (capacity
shrank below a previously legal stock), `withdraw(item, 1)` stores back
`clamped − withdrawn = 5 − 1 = 4` — it does not decrease the raw
amount by the withdrawn quantity (that would give 9); the hidden stock
is destroyed rather than preserved. -/
theorem claim3_counterexample :
    ((withdraw capsFive rawTen Item.itemA 1).map fun p => p.1 Item.itemA) = Except.ok 4 ∧
    (4 : ℕ) ≠ 10 - 1 :=
  ⟨rfl, by decide⟩

/-- C3 (amended). `withdraw` stores back `clampedStored − withdrawn`
and `deposit` stores back `clampedStored + deposited`. When the raw
amount does not exceed the capacity (no hidden stock), this changes the
raw amount by exactly the withdrawn/deposited quantity, as the claim
states; hidden stock above the capacity is truncated by the first
withdraw or deposit on that item, so it re-emerges on later capacity
growth only when no such operation intervened. -/
theorem claim3_amended {I : Type} [DecidableEq I] (caps raw : I → ℕ) (item : I)
    (amount : ℕ) (ha : amount ≠ 0) (hle : raw item ≤ caps item) :
    withdraw caps raw item amount =
      .ok (Function.update raw item (raw item - min amount (raw item)),
        min amount (raw item)) ∧
    deposit caps raw item amount =
      .ok (Function.update raw item (raw item + min amount (caps item - raw item)),
        min amount (caps item - raw item)) := by
  have hs : getStoredAmount caps raw item = raw item := min_eq_left hle
  constructor
  · simp only [withdraw, ha, if_false, hs]
  · simp only [deposit, ha, if_false, getFreeCapacity, hs]

/-- C3 (witness). The amended statement applied at capacity 10, raw
stock 6 planks, amount 4. -/
theorem claim3_amended_witness :
    (4 : ℕ) ≠ 0 ∧ scenario4Raw Item.woodPlank ≤ caps10 Item.woodPlank ∧
    (withdraw caps10 scenario4Raw Item.woodPlank 4 =
      .ok (Function.update scenario4Raw Item.woodPlank
        (scenario4Raw Item.woodPlank - min 4 (scenario4Raw Item.woodPlank)),
        min 4 (scenario4Raw Item.woodPlank)) ∧
    deposit caps10 scenario4Raw Item.woodPlank 4 =
      .ok (Function.update scenario4Raw Item.woodPlank
        (scenario4Raw Item.woodPlank +
          min 4 (caps10 Item.woodPlank - scenario4Raw Item.woodPlank)),
        min 4 (caps10 Item.woodPlank - scenario4Raw Item.woodPlank))) :=
  ⟨by decide, by decide,
    claim3_amended caps10 scenario4Raw Item.woodPlank 4 (by decide) (by decide)⟩

/-! ## C8 — deposit-then-withdraw round trip -/

/-- C8 (counterexample). The claim quantifies over every store whose
capacity is at least `n`. With capacity 2, raw stock 1 and `n = 2` the
deposit is clamped by the free capacity and yields only 1, not `n`. -/
theorem claim8_counterexample :
    ((deposit capsTwo rawOne Item.itemA 2).map fun p => p.2) = Except.ok 1 ∧
    (1 : ℕ) ≠ 2 :=
  ⟨rfl, by decide⟩

/-- C8 (amended). On a store whose free capacity for the item is at
least `n > 0`, `deposit(item, n)` followed by `withdraw(item, n)`
yields `n` from each call and restores the raw map exactly, so
repeating the pair yields `n` again and leaves the state unchanged. -/
theorem claim8_amended {I : Type} [DecidableEq I] (caps raw : I → ℕ) (item : I) (n : ℕ)
    (hn : 0 < n) (hfree : n ≤ getFreeCapacity caps raw item) :
    ∃ raw1 raw2, deposit caps raw item n = .ok (raw1, n) ∧
      withdraw caps raw1 item n = .ok (raw2, n) ∧ raw2 = raw := by
  have hraw : raw item < caps item := by
    by_contra h
    push_neg at h
    have : getStoredAmount caps raw item = caps item := min_eq_right h
    simp only [getFreeCapacity, this, Nat.sub_self] at hfree
    omega
  have hs : getStoredAmount caps raw item = raw item := min_eq_left hraw.le
  have hfree' : n ≤ caps item - raw item := by
    simpa only [getFreeCapacity, hs] using hfree
  have hsum : raw item + n ≤ caps item := by omega
  refine ⟨Function.update raw item (raw item + n), raw, ?_, ?_, rfl⟩
  · simp only [deposit, Nat.pos_iff_ne_zero.mp hn, if_false, getFreeCapacity, hs]
    rw [min_eq_left hfree']
  · have hs1 : getStoredAmount caps (Function.update raw item (raw item + n)) item =
        raw item + n := by
      simp only [getStoredAmount, Function.update_same]
      exact min_eq_left hsum
    simp only [withdraw, Nat.pos_iff_ne_zero.mp hn, if_false, hs1]
    rw [min_eq_left (Nat.le_add_left n (raw item))]
    have hback : Function.update (Function.update raw item (raw item + n)) item
        (raw item + n - n) = raw := by
      funext j
      by_cases hj : j = item
      · subst hj
        simp [Function.update_same, Nat.add_sub_cancel]
      · simp [Function.update_noteq hj]
    rw [hback]

/-- C8 (witness). The amended statement applied at capacity 10, raw
stock 6 planks, `n = 3` (free capacity 4 ≥ 3). -/
theorem claim8_amended_witness :
    (0 < 3) ∧ (3 ≤ getFreeCapacity caps10 scenario4Raw Item.woodPlank) ∧
    (∃ raw1 raw2, deposit caps10 scenario4Raw Item.woodPlank 3 = .ok (raw1, 3) ∧
      withdraw caps10 raw1 Item.woodPlank 3 = .ok (raw2, 3) ∧ raw2 = scenario4Raw) :=
  ⟨by decide, by decide,
    claim8_amended caps10 scenario4Raw Item.woodPlank 3 (by decide) (by decide)⟩

/-! ## C9 — non-termination of `update`

The support lemmas establish the exact two-state cycle of the `while`
loop on the scenario of `loopStartState`; the claim theorem concludes
that `update` exhausts every fuel bound, i.e. never terminates. -/

/-- The phase prefix of the top-level call computes `sigmaStall` and
the loop's initial tracker list. -/
theorem loop_phases_start :
    runPhases loopCaps loopStartState [0, 1, 2] 2 false = .ok (sigmaStall, trackersStart) := rfl

/-- The recursive call of the odd iterations (time delta 1 on the
stalled state) returns with the state unchanged, for every fuel. -/
theorem loop_inner_stall (g : ℕ) :
    updateFuel loopCaps (g + 1) sigmaStall loopInnerIdxs 1 false = .ok sigmaStall := rfl

/-- The recursive call with the negative minimal delta `-1` rewinds
line 0's progress from 1 to 0. -/
theorem loop_inner_reset (g : ℕ) :
    updateFuel loopCaps (g + 1) sigmaStall loopInnerIdxs (-1) false = .ok sigmaReset := rfl

/-- The recursive call with delta 1 on the rewound state advances line
0 back to its (output-blocked) duration. -/
theorem loop_inner_restall (g : ℕ) :
    updateFuel loopCaps (g + 1) sigmaReset loopInnerIdxs 1 false = .ok sigmaStall := rfl

/-- First loop iteration: from the entry state to the odd cycle
state. -/
theorem loop_step_entry (g : ℕ) :
    (updateGo loopCaps (g + 2)).2 sigmaStall trackersStart false =
    (updateGo loopCaps (g + 1)).2 sigmaStall trackersOdd false := rfl

/-- Odd cycle step: minimal non-zero remainder is `-1`; subtracting it
returns the trackers to the entry values and rewinds line 0. -/
theorem loop_step_odd (g : ℕ) :
    (updateGo loopCaps (g + 2)).2 sigmaStall trackersOdd false =
    (updateGo loopCaps (g + 1)).2 sigmaReset trackersStart false := rfl

/-- Even cycle step: minimal non-zero remainder is `1` again. -/
theorem loop_step_even (g : ℕ) :
    (updateGo loopCaps (g + 2)).2 sigmaReset trackersStart false =
    (updateGo loopCaps (g + 1)).2 sigmaStall trackersOdd false := rfl

/-- The two cycle states exhaust any amount of fuel. -/
theorem loop_cycle_diverges : ∀ g : ℕ,
    resErr2 ((updateGo loopCaps g).2 sigmaStall trackersOdd false) = some Err.outOfFuel ∧
    resErr2 ((updateGo loopCaps g).2 sigmaReset trackersStart false) = some Err.outOfFuel := by
  intro g
  induction g with
  | zero => exact ⟨rfl, rfl⟩
  | succ n ih =>
    match n, ih with
    | 0, _ => exact ⟨rfl, rfl⟩
    | m + 1, ih =>
      refine ⟨?_, ?_⟩
      · rw [loop_step_odd m]
        exact ih.2
      · rw [loop_step_even m]
        exact ih.1

/-- The loop diverges from its entry state for any fuel. -/
theorem loop_entry_diverges : ∀ g : ℕ,
    resErr2 ((updateGo loopCaps g).2 sigmaStall trackersStart false) = some Err.outOfFuel := by
  intro g
  match g with
  | 0 => rfl
  | 1 => rfl
  | m + 2 =>
    rw [loop_step_entry m]
    exact (loop_cycle_diverges (m + 1)).1

/-- C9 (code bug). On `loopStartState` — three lines satisfying the
data-model invariants, store itemA = 1 / itemC = 1, positive
`timeDelta = 2` — `update` does not terminate: its `while` loop enters
an exact two-state cycle (the minimal non-zero remainder alternates
between 1 and −1), so the run exhausts every fuel bound. -/
theorem claim9_code_bug_eval : ∀ fuel : ℕ,
    resErr (updateFuel loopCaps fuel loopStartState [0, 1, 2] 2 false) =
      some Err.outOfFuel := by
  intro fuel
  match fuel with
  | 0 => rfl
  | g + 1 =>
    have h : updateFuel loopCaps (g + 1) loopStartState [0, 1, 2] 2 false =
        afterLoop loopCaps ((updateGo loopCaps g).2 sigmaStall trackersStart false) := rfl
    rw [h]
    have h2 := loop_entry_diverges g
    revert h2
    cases hr : (updateGo loopCaps g).2 sigmaStall trackersStart false with
    | error e =>
      intro h2
      simp only [resErr2] at h2
      simp only [afterLoop, resErr]
      exact h2
    | ok v =>
      intro h2
      simp only [resErr2] at h2
      exact absurd h2 (by simp)

end OFPU
